import Mathlib

/-!
Verification of the shaku dependency-injection core against its
natural-language specification.

The repository's `src/` tree contains `src/shaku/src/lib.rs` (crate
documentation and re-exports, including the shared `Error` type and the
`Result<T>` alias) and `src/shaku/src/module/mod.rs` (the `AnyType` /
`ParamAnyType` aliases and the `ComponentMap` / `ParameterMap` maps with
their `thread_safe` bounds).  The registration / build / resolve engine
itself (the `container`, `component` and `parameter` modules and
`shaku_internals::error`) is not under `src/`, so those parts are
modelled from the spec, as marked on each definition below.
-/

/-- Modelled from the spec (section 3, TypeKey): an opaque identity derived
from a type; two TypeKeys are equal iff they denote the same type.  The
source's `TypeId` is not under `src/`; we model the identity as a natural
number with decidable equality. -/
abbrev TypeKey := Nat

/-- Modelled from the spec (section 4.1): heterogeneous parameter values.
The source's type-erased `anymap` values are not under `src/`; we model a
closed universe of value types, each with a runtime type identity. -/
inductive PValue where
  | vnat  (n : Nat)
  | vstr  (s : String)
  | vbool (b : Bool)
deriving DecidableEq, Repr

/-- Modelled from the spec (section 3, TypeKey): the runtime type identity
of a parameter value, used as the key of the typed parameter map. -/
def typeKeyOf : PValue → TypeKey
  | .vnat _ => 0
  | .vstr _ => 1
  | .vbool _ => 2

/-- Modelled from the spec (section 3, ParameterMap): a heterogeneous
mapping from either a name or a value's TypeKey to a typed value, with at
most one entry per name and at most one entry per type.  The source's
`ParameterMap` backing store (`parameter` module) is not under `src/`. -/
structure ParameterMap where
  named : List (String × PValue)
  typed : List (TypeKey × PValue)
deriving DecidableEq, Repr

/-- The empty parameter map. -/
def ParameterMap.empty : ParameterMap := ⟨[], []⟩

/-- Overwrite-or-append for the named parameter store: replaces the first
entry under the name regardless of the prior value's type, else appends. -/
def overwriteNamed : List (String × PValue) → String → PValue → List (String × PValue)
  | [], n, v => [(n, v)]
  | (m, w) :: rest, n, v =>
      if m = n then (n, v) :: rest else (m, w) :: overwriteNamed rest n v

/-- Overwrite-or-append for the typed parameter store, keyed by the value's
TypeKey. -/
def overwriteTyped : List (TypeKey × PValue) → TypeKey → PValue → List (TypeKey × PValue)
  | [], k, v => [(k, v)]
  | (m, w) :: rest, k, v =>
      if m = k then (k, v) :: rest else (m, w) :: overwriteTyped rest k v

/-- Modelled from the spec (section 4.1, `set_named`): stores `v` under
`n`; overwrites any prior value under that name regardless of its former
type.  No error. -/
def ParameterMap.setNamed (pm : ParameterMap) (n : String) (v : PValue) : ParameterMap :=
  { pm with named := overwriteNamed pm.named n v }

/-- Modelled from the spec (section 4.1, `set_typed`): stores `v` keyed by
`TypeKey(V)`; overwrites any prior value of that same type. -/
def ParameterMap.setTyped (pm : ParameterMap) (v : PValue) : ParameterMap :=
  { pm with typed := overwriteTyped pm.typed (typeKeyOf v) v }

/-- Modelled from the spec (section 4.1, `get_named`): returns the stored
value cast to the requested type, or `none` if absent or if the value
present has a different runtime type than requested. -/
def ParameterMap.getNamed (pm : ParameterMap) (n : String) (ty : TypeKey) : Option PValue :=
  match List.lookup n pm.named with
  | some v => if typeKeyOf v = ty then some v else none
  | none => none

/-- Modelled from the spec (section 4.1, `get_typed`): returns the stored
value of the requested type, or `none` if absent. -/
def ParameterMap.getTyped (pm : ParameterMap) (ty : TypeKey) : Option PValue :=
  match List.lookup ty pm.typed with
  | some v => if typeKeyOf v = ty then some v else none
  | none => none

/-- Modelled from the spec (sections 2 and 6): the instance a factory
produces.  The canonical factory below records the component's key, the
resolved dependency handles it was given (in declared order) and the
ParameterMap it observed; user factories may produce any instance. -/
inductive Instance where
  | mk (key : TypeKey) (deps : List Instance) (params : ParameterMap)

/-- The key of a built instance. -/
def Instance.key : Instance → TypeKey
  | .mk k _ _ => k

/-- The parameter map a factory observed when producing this instance. -/
def Instance.params : Instance → ParameterMap
  | .mk _ _ p => p

/-- Modelled from the spec (sections 4.3 step 2e and 7): the ways a
factory itself can fail — a required named/typed parameter is missing or
of the wrong type (surfaced as `ParameterResolutionError(key, detail)`),
or the factory's own construction logic fails (surfaced as
`ConstructionError(key, detail)`, propagated, not interpreted). -/
inductive FactoryFailure where
  | paramMissing (detail : String)
  | construction (detail : String)

/-- Modelled from the spec (section 6): a factory callable with the
signature `(resolved dependency handles, ParameterMap) -> Result`; it
receives the resolved handles in declared order together with the
registration's ParameterMap and may fail. -/
abbrev Factory := List Instance → ParameterMap → Except FactoryFailure Instance

/-- Modelled from the spec (section 3, Registration): one entry per
interface the caller intends to resolve — the interface's TypeKey, the
concrete factory, the ordered dependency keys, and the parameter
overrides. -/
structure Registration where
  interface : TypeKey
  deps : List TypeKey
  params : ParameterMap
  factory : Factory

/-- The always-succeeding factory a plain component uses in examples: it
packages the resolved dependency handles and the observed ParameterMap
into the produced instance. -/
def canonicalFactory (key : TypeKey) : Factory :=
  fun insts pm => .ok (Instance.mk key insts pm)

/-- Modelled from the spec (section 7, error taxonomy): the single shared
error type.  `shaku_internals::error::Error` is re-exported by
`src/shaku/src/lib.rs` but its definition is not under `src/`; the
variants follow the spec's taxonomy. -/
inductive Error where
  | UnregisteredDependency (key : TypeKey)
  | CircularDependency (path : List TypeKey)
  | ParameterResolutionError (key : TypeKey) (detail : String)
  | ConstructionError (key : TypeKey) (detail : String)
  | NotFound (key : TypeKey)
deriving DecidableEq, Repr

/-- How the engine surfaces a factory's own failure for component `key`
in the shared error type (spec sections 4.3 step 2e and 7). -/
def factoryError (key : TypeKey) : FactoryFailure → Error
  | .paramMissing d => .ParameterResolutionError key d
  | .construction d => .ConstructionError key d

/-- The single `Result` alias of `src/shaku/src/lib.rs` (`pub type
Result<T> = std::result::Result<T, shaku_internals::error::Error>`):
every fallible operation reports failure through the one shared error
type. -/
def Result (α : Type) := Except Error α

/-- Modelled from the spec (section 3, Container): the finished mapping
from TypeKey to shared instance handle, immutable after construction. -/
abbrev Container := List (TypeKey × Instance)

/-- Modelled from the spec (section 3, BuildContext): the transient state
during resolution — the pending set (cycle sentinel, kept as the current
dependency chain) and the built cache (kept in completion order, so its
key sequence records the successful factory invocations in order; a
failing invocation aborts the whole build and surfaces in the error). -/
structure BuildState where
  pending : List TypeKey
  built : List (TypeKey × Instance)

/-- The keys of the built cache, in factory-invocation order. -/
def keysOf (s : BuildState) : List TypeKey := s.built.map Prod.fst

/-- Find the Registration for a key (spec section 3: `registry`, the
finalized set of Registrations). -/
def findReg (regs : List Registration) (key : TypeKey) : Option Registration :=
  regs.find? (fun r => r.interface == key)

/-- Whether a key has a Registration. -/
def isRegistered (regs : List Registration) (key : TypeKey) : Bool :=
  (findReg regs key).isSome

/-- The declared dependency keys of a registered key (empty if
unregistered). -/
def depsOf (regs : List Registration) (key : TypeKey) : List TypeKey :=
  match findReg regs key with
  | some r => r.deps
  | none => []

/-- One declared dependency edge of the registration graph. -/
def DepEdge (regs : List Registration) (a b : TypeKey) : Prop :=
  b ∈ depsOf regs a

/-- Reflexive-transitive reachability along declared dependency edges. -/
inductive Reaches (regs : List Registration) : TypeKey → TypeKey → Prop where
  | refl (k : TypeKey) : Reaches regs k k
  | step {a b c : TypeKey} : b ∈ depsOf regs a → Reaches regs b c → Reaches regs a c

/-- A key lying on a dependency cycle: one of its declared dependencies
reaches back to it. -/
def CycleAt (regs : List Registration) (k : TypeKey) : Prop :=
  ∃ d ∈ depsOf regs k, Reaches regs d k

/-- Modelled from the spec (section 4.3, step 2d): resolve a list of
dependency keys in declared order, threading the BuildContext and
propagating the first failure immediately. -/
def resolveList (f : TypeKey → BuildState → Except (Error × BuildState) (Instance × BuildState)) :
    List TypeKey → BuildState → Except (Error × BuildState) (List Instance × BuildState)
  | [], s => .ok ([], s)
  | d :: ds, s =>
    match f d s with
    | .error es => .error es
    | .ok (inst, s') =>
      match resolveList f ds s' with
      | .error es => .error es
      | .ok (insts, s'') => .ok (inst :: insts, s'')

/-- Modelled from the spec (section 4.3, step 2): depth-first resolution
of one key.  Cached keys return the cached handle unchanged; a pending key
fails with `CircularDependency` whose path runs from the first pending
ancestor to the revisited key inclusive; an unregistered key fails with
`UnregisteredDependency`; otherwise the key is marked pending, its
dependencies are resolved in declared order, and the registration's
factory is invoked with the resolved handles (in declared order) and the
registration's ParameterMap (step 2e): if the factory fails, the whole
build aborts with the corresponding `ParameterResolutionError` /
`ConstructionError`; otherwise the produced instance is stored in `built`
and the key is unmarked.  Errors carry the BuildContext at the point of
failure so the factory-invocation record is observable; the public
`build` discards it.  The fuel argument only bounds the recursion depth;
`build` supplies enough fuel that the fuel-exhaustion branch is
unreachable (proved below). -/
def resolveKey (regs : List Registration) : Nat → TypeKey → BuildState →
    Except (Error × BuildState) (Instance × BuildState)
  | 0, _, s => .error (.CircularDependency [], s)
  | fuel+1, key, s =>
    match List.lookup key s.built with
    | some inst => .ok (inst, s)
    | none =>
      if key ∈ s.pending then
        .error (.CircularDependency (s.pending.dropWhile (fun x => x != key) ++ [key]), s)
      else
        match findReg regs key with
        | none => .error (.UnregisteredDependency key, s)
        | some reg =>
          match resolveList (resolveKey regs fuel) reg.deps
              { pending := s.pending ++ [key], built := s.built } with
          | .error es => .error es
          | .ok (insts, s') =>
            match reg.factory insts reg.params with
            | .error f => .error (factoryError key f, s')
            | .ok inst =>
              .ok (inst, { pending := s.pending, built := s'.built ++ [(key, inst)] })

/-- Modelled from the spec (section 4.3, step 1): attempt to build every
Registration, in original registration order, via `resolveKey`. -/
def buildLoop (regs : List Registration) (fuel : Nat) :
    List Registration → BuildState → Except (Error × BuildState) BuildState
  | [], s => .ok s
  | r :: rs, s =>
    match resolveKey regs fuel r.interface s with
    | .error es => .error es
    | .ok (_, s') => buildLoop regs fuel rs s'

/-- The whole build, keeping the final BuildContext (also on failure, so
the factory-invocation record is observable). -/
def buildSt (regs : List Registration) : Except (Error × BuildState) BuildState :=
  buildLoop regs (regs.length + 1) regs ⟨[], []⟩

/-- Modelled from the spec (section 4.2, `build()`): finalizes the
registrations into an immutable Container, or fails with the first error;
no partial Container is returned. -/
def build (regs : List Registration) : Result Container :=
  match buildSt regs with
  | .error (e, _) => .error e
  | .ok s => .ok s.built

/-- The error a build reports, if any. -/
def buildError (regs : List Registration) : Option Error :=
  match buildSt regs with
  | .error (e, _) => some e
  | .ok _ => none

/-- The keys whose factories were invoked and succeeded during the build
(in invocation order), including failed builds; the one invocation a
failed build may abort on surfaces in the error instead. -/
def buildTrace (regs : List Registration) : List TypeKey :=
  match buildSt regs with
  | .error (_, s) => keysOf s
  | .ok s => keysOf s

/-- Modelled from the spec (section 4.4, Container `resolve`): look up
`TypeKey(Interface)` in `instances`; return the shared handle or
`NotFound` if the interface was never registered.  Total — it never
panics. -/
def resolveContainer (c : Container) (key : TypeKey) : Result Instance :=
  match List.lookup key c with
  | some inst => .ok inst
  | none => .error (.NotFound key)

/-- Modelled from the spec (section 4.2, `register`): adds or replaces the
Registration for the interface — last-write-wins, never merges; original
registration order of surviving entries is preserved. -/
def register (b : List Registration) (r : Registration) : List Registration :=
  if b.any (fun x => x.interface == r.interface) then
    b.map (fun x => if x.interface == r.interface then r else x)
  else
    b ++ [r]

/-- Modelled from the spec (section 4.2, fluent configuration):
`with_named_parameter` mutates the Registration's ParameterMap and
returns the handle for chaining. -/
def withNamedParameter (r : Registration) (n : String) (v : PValue) : Registration :=
  { r with params := r.params.setNamed n v }

/-- Modelled from the spec (section 4.2, fluent configuration):
`with_typed_parameter` mutates the Registration's ParameterMap and
returns the handle for chaining. -/
def withTypedParameter (r : Registration) (v : PValue) : Registration :=
  { r with params := r.params.setTyped v }

/-- Thread-shareability capabilities of a Rust type, as relevant to
`src/shaku/src/module/mod.rs`: whether the type is `Send` and whether it
is `Sync`. -/
structure TraitBound where
  send : Bool
  sync : Bool
deriving DecidableEq, Repr

/-- Whether a type with capabilities `t` satisfies a required bound `b`
(every capability the bound demands is present). -/
def admits (b t : TraitBound) : Bool :=
  (!b.send || t.send) && (!b.sync || t.sync)

/-- The bound of `AnyType` in `src/shaku/src/module/mod.rs`: with the
`thread_safe` feature `dyn Any + Send + Sync`, without it `dyn Any`. -/
def anyTypeBound (threadSafe : Bool) : TraitBound :=
  if threadSafe then ⟨true, true⟩ else ⟨false, false⟩

/-- The bound of `ParamAnyType` in `src/shaku/src/module/mod.rs`: with the
`thread_safe` feature `dyn Any + Send`, without it `dyn Any`. -/
def paramAnyTypeBound (threadSafe : Bool) : TraitBound :=
  if threadSafe then ⟨true, false⟩ else ⟨false, false⟩

/-- The value bound of `ComponentMap = anymap2::Map<AnyType>`
(`src/shaku/src/module/mod.rs`). -/
def componentMapBound (threadSafe : Bool) : TraitBound := anyTypeBound threadSafe

/-- The value bound of `ParameterMap = anymap2::Map<ParamAnyType>`
(`src/shaku/src/module/mod.rs`). -/
def parameterMapBound (threadSafe : Bool) : TraitBound := paramAnyTypeBound threadSafe

/-- Tags for the spec's error taxonomy (section 7). -/
inductive ErrTag where
  | unregistered
  | circular
  | parameter
  | construction
  | notFound
deriving DecidableEq, Repr

/-- The taxonomy tag of an error. -/
def errTag : Error → ErrTag
  | .UnregisteredDependency _ => .unregistered
  | .CircularDependency _ => .circular
  | .ParameterResolutionError _ _ => .parameter
  | .ConstructionError _ _ => .construction
  | .NotFound _ => .notFound

/-- The taxonomy tags that may surface from `build()` (spec section 7). -/
def buildTimeTags : List ErrTag :=
  [.unregistered, .circular, .parameter, .construction]

/-- The BuildContext a resolution step ends in, whether it succeeded or
failed. -/
def stateOfE {α : Type} : Except (Error × BuildState) (α × BuildState) → BuildState
  | .error (_, s) => s
  | .ok (_, s) => s

/-- The build order respects dependencies: every built entry's declared
dependencies occur strictly earlier in the built list. -/
def TopOrderL (regs : List Registration) (l : List (TypeKey × Instance)) : Prop :=
  ∀ (i : Nat) (hi : i < l.length), ∀ d ∈ depsOf regs (l[i].1), d ∈ (l.map Prod.fst).take i

/-- The resolver's BuildContext invariant: built keys are duplicate-free,
dependency-closed in order, registered, and disjoint from the pending
chain. -/
structure InvSt (regs : List Registration) (s : BuildState) : Prop where
  nodup : (keysOf s).Nodup
  topo : TopOrderL regs s.built
  regd : ∀ x ∈ keysOf s, isRegistered regs x = true
  disj : ∀ x ∈ keysOf s, x ∉ s.pending

/-- The final BuildContext of the root loop, whether it succeeded or
failed. -/
def stateOfB : Except (Error × BuildState) BuildState → BuildState
  | .error (_, s) => s
  | .ok s => s

/-- The number of distinct registered interfaces — an upper bound for the
pending chain, used to justify the resolver's fuel. -/
def regsD (regs : List Registration) : Nat :=
  ((regs.map (fun r => r.interface)).dedup).length

/-- A key may be resolved either as a root (pending empty, key registered)
or as a declared dependency of the innermost pending key. -/
def Admissible (regs : List Registration) (key : TypeKey) (pending : List TypeKey) : Prop :=
  (pending = [] ∧ isRegistered regs key = true) ∨
  (∃ last, pending.getLast? = some last ∧ key ∈ depsOf regs last)

/-- The pending chain invariant: consecutive pending keys are dependency
edges, every pending key is registered, and the chain has no duplicates. -/
def PendOK (regs : List Registration) (s : BuildState) : Prop :=
  List.Chain' (DepEdge regs) s.pending ∧
  (∀ x ∈ s.pending, isRegistered regs x = true) ∧ s.pending.Nodup

/-- Classification of the errors resolution can produce: a
CircularDependency whose path is a genuine dependency cycle (first and
last key equal, consecutive keys dependency edges, none of them built),
or an UnregisteredDependency for a declared but unregistered key. -/
def GoodErr (regs : List Registration) (e : Error) (s' : BuildState) : Prop :=
  (∃ p k₀, e = .CircularDependency p ∧ p.head? = some k₀ ∧ p.getLast? = some k₀ ∧
      List.Chain' (DepEdge regs) p ∧ 2 ≤ p.length ∧ isRegistered regs k₀ = true ∧
      (∀ x ∈ p, x ∉ keysOf s')) ∨
  (∃ k', e = .UnregisteredDependency k' ∧ isRegistered regs k' = false ∧
      ∃ r ∈ regs, k' ∈ r.deps) ∨
  (∃ k₁ fe reg insts, e = factoryError k₁ fe ∧ findReg regs k₁ = some reg ∧
      reg.factory insts reg.params = .error fe)

/-- What claim C1 asserts of a successful build's order: the built keys
are exactly the registered interfaces, and every entry's declared
dependencies occur strictly earlier in the order. -/
def BuildTopo (regs : List Registration) (built : Container) : Prop :=
  (∀ k, k ∈ built.map Prod.fst ↔ isRegistered regs k = true) ∧
  (∀ (i : Nat) (hi : i < built.length), ∀ d ∈ depsOf regs (built[i].1),
      d ∈ (built.map Prod.fst).take i)

/-- What claim C1 asserts of ties: if no registration up to and including
`r₁` reaches `r₂`'s interface, the earlier-registered `r₁` is built before
`r₂` (independent subtrees follow original registration order). -/
def TieBreak (regs : List Registration) (built : Container) : Prop :=
  ∀ pre r₁ mid r₂ post, regs = pre ++ r₁ :: mid ++ r₂ :: post →
    (∀ r' ∈ pre ++ [r₁], ¬ Reaches regs r'.interface r₂.interface) →
    ∀ (i j : Nat) (hi : i < built.length) (hj : j < built.length),
      built[i].1 = r₁.interface → built[j].1 = r₂.interface → i < j

/-- A two-component example registered in reverse dependency order: the
first registration depends on the second, so the build order is the other
way round. -/
def exTopo : List Registration :=
  [⟨10, [20], ParameterMap.empty, canonicalFactory 10⟩, ⟨20, [], ParameterMap.empty, canonicalFactory 20⟩]

/-- The container `build exTopo` produces: the dependency first, then the
dependent — not registration order. -/
def exTopoBuilt : Container :=
  [(20, .mk 20 [] ParameterMap.empty),
   (10, .mk 10 [.mk 20 [] ParameterMap.empty] ParameterMap.empty)]

/-- A diamond: component 1 depends on 2 and 3, both of which depend on 4;
4's factory must run exactly once. -/
def exDiamond : List Registration :=
  [⟨1, [2, 3], ParameterMap.empty, canonicalFactory 1⟩, ⟨2, [4], ParameterMap.empty, canonicalFactory 2⟩,
   ⟨3, [4], ParameterMap.empty, canonicalFactory 3⟩, ⟨4, [], ParameterMap.empty, canonicalFactory 4⟩]

/-- The container `build exDiamond` produces. -/
def exDiamondBuilt : Container :=
  [(4, .mk 4 [] ParameterMap.empty),
   (2, .mk 2 [.mk 4 [] ParameterMap.empty] ParameterMap.empty),
   (3, .mk 3 [.mk 4 [] ParameterMap.empty] ParameterMap.empty),
   (1, .mk 1 [.mk 2 [.mk 4 [] ParameterMap.empty] ParameterMap.empty,
              .mk 3 [.mk 4 [] ParameterMap.empty] ParameterMap.empty] ParameterMap.empty)]

/-- A registry containing a dependency cycle between 1 and 2, registered
after a component whose dependency 9 is missing: the build fails, but with
UnregisteredDependency, not CircularDependency. -/
def exMix : List Registration :=
  [⟨0, [9], ParameterMap.empty, canonicalFactory 0⟩, ⟨1, [2], ParameterMap.empty, canonicalFactory 1⟩, ⟨2, [1], ParameterMap.empty, canonicalFactory 2⟩]

/-- The three-cycle example from the spec: 1 depends on 2, 2 on 3, 3 on 1. -/
def exCyc : List Registration :=
  [⟨1, [2], ParameterMap.empty, canonicalFactory 1⟩, ⟨2, [3], ParameterMap.empty, canonicalFactory 2⟩, ⟨3, [1], ParameterMap.empty, canonicalFactory 3⟩]

/-- Two registrations with two distinct missing dependencies: for the
second one, the build error does not name its missing key. -/
def exMiss2 : List Registration :=
  [⟨1, [8], ParameterMap.empty, canonicalFactory 1⟩, ⟨2, [9], ParameterMap.empty, canonicalFactory 2⟩]

/-- A single registration whose only dependency 9 is unregistered. -/
def exMissOnly : List Registration := [⟨1, [9], ParameterMap.empty, canonicalFactory 1⟩]

theorem lookup_none_not_mem_fst {β : Type} {l : List (TypeKey × β)} {k : TypeKey}
    (h : List.lookup k l = none) : k ∉ l.map Prod.fst := by
  intro hk
  rcases List.mem_map.mp hk with ⟨p, hp, hfst⟩
  have := (List.lookup_eq_none_iff.mp h) p hp
  simp [← hfst] at this

theorem mem_fst_lookup_isSome {β : Type} {l : List (TypeKey × β)} {k : TypeKey}
    (h : k ∈ l.map Prod.fst) : (List.lookup k l).isSome := by
  rcases List.mem_map.mp h with ⟨p, hp, hfst⟩
  exact List.lookup_isSome_iff.mpr ⟨p, hp, by simp [← hfst]⟩

theorem findReg_eq_some {regs : List Registration} {k : TypeKey} {r : Registration}
    (h : findReg regs k = some r) : r ∈ regs ∧ r.interface = k := by
  refine ⟨List.mem_of_find?_eq_some h, ?_⟩
  have := List.find?_some h
  simpa using this

theorem isRegistered_of_findReg {regs : List Registration} {k : TypeKey} {r : Registration}
    (h : findReg regs k = some r) : isRegistered regs k = true := by
  simp [isRegistered, h]

theorem isRegistered_of_mem {regs : List Registration} {r : Registration}
    (h : r ∈ regs) : isRegistered regs r.interface = true := by
  simp only [isRegistered, findReg, Option.isSome_iff_exists]
  have : (regs.find? (fun x => x.interface == r.interface)).isSome :=
    List.find?_isSome.mpr ⟨r, h, by simp⟩
  exact Option.isSome_iff_exists.mp this

theorem isRegistered_mem_interfaces {regs : List Registration} {k : TypeKey}
    (h : isRegistered regs k = true) : k ∈ regs.map (fun r => r.interface) := by
  simp only [isRegistered, Option.isSome_iff_exists] at h
  rcases h with ⟨r, hr⟩
  rcases findReg_eq_some hr with ⟨hmem, hif⟩
  exact List.mem_map.mpr ⟨r, hmem, hif⟩

theorem depsOf_of_findReg {regs : List Registration} {k : TypeKey} {r : Registration}
    (h : findReg regs k = some r) : depsOf regs k = r.deps := by
  simp [depsOf, h]

theorem isRegistered_false_not_mem {regs : List Registration} {k : TypeKey}
    (h : isRegistered regs k = false) {r : Registration} (hr : r ∈ regs) :
    r.interface ≠ k := by
  intro he
  have : isRegistered regs k = true := he ▸ isRegistered_of_mem hr
  rw [this] at h
  cases h

theorem findReg_of_nodup {regs : List Registration} {r : Registration}
    (hN : (regs.map (fun x => x.interface)).Nodup) (hr : r ∈ regs) :
    findReg regs r.interface = some r := by
  induction regs with
  | nil => cases hr
  | cons x xs ih =>
    rcases List.mem_cons.mp hr with rfl | hmem
    · simp [findReg]
    · have hne : x.interface ≠ r.interface := by
        intro he
        have : r.interface ∈ xs.map (fun y => y.interface) :=
          List.mem_map.mpr ⟨r, hmem, rfl⟩
        rw [← he] at this
        exact (List.nodup_cons.mp hN).1 this
      have hb : (x.interface == r.interface) = false := by simp [hne]
      have := ih (List.nodup_cons.mp hN).2 hmem
      simp only [findReg, List.find?_cons, hb] at this ⊢
      exact this

theorem dropWhile_ne_head {l : List TypeKey} {k : TypeKey} (h : k ∈ l) :
    (l.dropWhile (fun x => x != k)).head? = some k := by
  induction l with
  | nil => cases h
  | cons x xs ih =>
    by_cases hx : x = k
    · subst hx
      rw [List.dropWhile_cons_of_neg (by simp)]
      rfl
    · rw [List.dropWhile_cons_of_pos (by simp [hx])]
      exact ih (by rcases List.mem_cons.mp h with rfl | hm; exact absurd rfl hx; exact hm)

/-- The five shapes a non-fuel-exhausted resolution step can take, with
the equations describing each. -/
theorem resolveKey_succ_cases (regs : List Registration) (fuel : Nat) (k : TypeKey)
    (s : BuildState) :
    (∃ inst, List.lookup k s.built = some inst ∧ resolveKey regs (fuel+1) k s = .ok (inst, s))
    ∨ (List.lookup k s.built = none ∧ k ∈ s.pending ∧
        resolveKey regs (fuel+1) k s =
          .error (.CircularDependency (s.pending.dropWhile (fun x => x != k) ++ [k]), s))
    ∨ (List.lookup k s.built = none ∧ k ∉ s.pending ∧ findReg regs k = none ∧
        resolveKey regs (fuel+1) k s = .error (.UnregisteredDependency k, s))
    ∨ (∃ reg, List.lookup k s.built = none ∧ k ∉ s.pending ∧ findReg regs k = some reg ∧
        ((∃ es, resolveList (resolveKey regs fuel) reg.deps ⟨s.pending ++ [k], s.built⟩ = .error es ∧
            resolveKey regs (fuel+1) k s = .error es)
          ∨ (∃ insts s' fe, resolveList (resolveKey regs fuel) reg.deps ⟨s.pending ++ [k], s.built⟩ = .ok (insts, s') ∧
              reg.factory insts reg.params = .error fe ∧
              resolveKey regs (fuel+1) k s = .error (factoryError k fe, s'))
          ∨ (∃ insts s' inst, resolveList (resolveKey regs fuel) reg.deps ⟨s.pending ++ [k], s.built⟩ = .ok (insts, s') ∧
              reg.factory insts reg.params = .ok inst ∧
              resolveKey regs (fuel+1) k s =
                .ok (inst, ⟨s.pending, s'.built ++ [(k, inst)]⟩)))) := by
  cases h1 : List.lookup k s.built with
  | some inst =>
    exact .inl ⟨inst, rfl, by simp [resolveKey, h1]⟩
  | none =>
    by_cases h2 : k ∈ s.pending
    · exact .inr (.inl ⟨rfl, h2, by simp [resolveKey, h1, h2]⟩)
    · cases h3 : findReg regs k with
      | none =>
        exact .inr (.inr (.inl ⟨rfl, h2, rfl, by simp [resolveKey, h1, h2, h3]⟩))
      | some reg =>
        refine .inr (.inr (.inr ⟨reg, rfl, h2, rfl, ?_⟩))
        cases h4 : resolveList (resolveKey regs fuel) reg.deps ⟨s.pending ++ [k], s.built⟩ with
        | error es =>
          exact .inl ⟨es, rfl, by simp [resolveKey, h1, h2, h3, h4]⟩
        | ok p =>
          obtain ⟨insts, sd⟩ := p
          cases h5 : reg.factory insts reg.params with
          | error fe =>
            exact .inr (.inl ⟨insts, sd, fe, rfl, h5,
              by simp [resolveKey, h1, h2, h3, h4, h5]⟩)
          | ok inst =>
            exact .inr (.inr ⟨insts, sd, inst, rfl, h5,
              by simp [resolveKey, h1, h2, h3, h4, h5]⟩)

theorem resolveList_builtExtends
    {f : TypeKey → BuildState → Except (Error × BuildState) (Instance × BuildState)}
    (hf : ∀ k s, ∃ ext, (stateOfE (f k s)).built = s.built ++ ext) :
    ∀ (ds : List TypeKey) (s : BuildState),
      ∃ ext, (stateOfE (resolveList f ds s)).built = s.built ++ ext := by
  intro ds
  induction ds with
  | nil => intro s; exact ⟨[], by simp [resolveList, stateOfE]⟩
  | cons d ds ih =>
    intro s
    cases h1 : f d s with
    | error es =>
      obtain ⟨e, serr⟩ := es
      rcases hf d s with ⟨ext, hext⟩
      rw [h1] at hext
      simp only [stateOfE] at hext
      exact ⟨ext, by simp only [resolveList, h1, stateOfE]; exact hext⟩
    | ok p =>
      obtain ⟨i₁, s₁⟩ := p
      rcases hf d s with ⟨ext₁, hext₁⟩
      rw [h1] at hext₁
      simp only [stateOfE] at hext₁
      rcases ih s₁ with ⟨ext₂, hext₂⟩
      refine ⟨ext₁ ++ ext₂, ?_⟩
      simp only [resolveList, h1]
      cases h2 : resolveList f ds s₁ with
      | error es =>
        obtain ⟨e, serr⟩ := es
        rw [h2] at hext₂
        simp only [stateOfE] at hext₂ ⊢
        rw [hext₂, hext₁, List.append_assoc]
      | ok q =>
        obtain ⟨is₂, s₂⟩ := q
        rw [h2] at hext₂
        simp only [stateOfE] at hext₂ ⊢
        rw [hext₂, hext₁, List.append_assoc]

theorem resolveKey_builtExtends (regs : List Registration) :
    ∀ (fuel : Nat) (k : TypeKey) (s : BuildState),
      ∃ ext, (stateOfE (resolveKey regs fuel k s)).built = s.built ++ ext := by
  intro fuel
  induction fuel with
  | zero => intro k s; exact ⟨[], by simp [resolveKey, stateOfE]⟩
  | succ fuel ih =>
    intro k s
    rcases resolveKey_succ_cases regs fuel k s with
      ⟨inst, _, heq⟩ | ⟨_, _, heq⟩ | ⟨_, _, _, heq⟩ |
      ⟨reg, _, _, _, ⟨es, h4, heq⟩ | ⟨insts, sd, fe, h4, h5, heq⟩ | ⟨insts, sd, inst₁, h4, h5, heq⟩⟩
    · exact ⟨[], by simp [heq, stateOfE]⟩
    · exact ⟨[], by simp [heq, stateOfE]⟩
    · exact ⟨[], by simp [heq, stateOfE]⟩
    · obtain ⟨e, serr⟩ := es
      rcases resolveList_builtExtends ih reg.deps ⟨s.pending ++ [k], s.built⟩ with ⟨ext, hext⟩
      rw [h4] at hext
      simp only [stateOfE] at hext
      exact ⟨ext, by simp only [heq, stateOfE]; exact hext⟩
    · rcases resolveList_builtExtends ih reg.deps ⟨s.pending ++ [k], s.built⟩ with ⟨ext, hext⟩
      rw [h4] at hext
      simp only [stateOfE] at hext
      exact ⟨ext, by simp only [heq, stateOfE]; exact hext⟩
    · rcases resolveList_builtExtends ih reg.deps ⟨s.pending ++ [k], s.built⟩ with ⟨ext, hext⟩
      rw [h4] at hext
      simp only [stateOfE] at hext
      refine ⟨ext ++ [(k, inst₁)], ?_⟩
      simp only [heq, stateOfE]
      rw [hext, List.append_assoc]

theorem resolveList_pending_ok
    {f : TypeKey → BuildState → Except (Error × BuildState) (Instance × BuildState)}
    (hf : ∀ k s i s', f k s = .ok (i, s') → s'.pending = s.pending) :
    ∀ (ds : List TypeKey) (s : BuildState) (insts : List Instance) (s' : BuildState),
      resolveList f ds s = .ok (insts, s') → s'.pending = s.pending := by
  intro ds
  induction ds with
  | nil =>
    intro s insts s' h
    simp only [resolveList] at h
    cases h
    rfl
  | cons d ds ih =>
    intro s insts s' h
    cases h1 : f d s with
    | error es =>
      simp only [resolveList, h1] at h
      cases h
    | ok p =>
      obtain ⟨i₁, s₁⟩ := p
      simp only [resolveList, h1] at h
      cases h2 : resolveList f ds s₁ with
      | error es => rw [h2] at h; cases h
      | ok q =>
        obtain ⟨is₂, s₂⟩ := q
        rw [h2] at h
        cases h
        rw [ih s₁ _ _ h2, hf d s i₁ s₁ h1]

theorem resolveKey_pending_ok (regs : List Registration) :
    ∀ (fuel : Nat) (k : TypeKey) (s : BuildState) (inst : Instance) (s' : BuildState),
      resolveKey regs fuel k s = .ok (inst, s') → s'.pending = s.pending := by
  intro fuel
  induction fuel with
  | zero => intro k s inst s' h; simp [resolveKey] at h
  | succ fuel ih =>
    intro k s inst s' h
    rcases resolveKey_succ_cases regs fuel k s with
      ⟨inst₀, _, heq⟩ | ⟨_, _, heq⟩ | ⟨_, _, _, heq⟩ |
      ⟨reg, _, _, _, ⟨es, h4, heq⟩ | ⟨insts, sd, fe, h4, h5, heq⟩ |
        ⟨insts, sd, inst₁, h4, h5, heq⟩⟩ <;> rw [heq] at h
    · cases h; rfl
    · cases h
    · cases h
    · cases h
    · cases h
    · cases h; rfl

theorem lookup_some_mem_fst {β : Type} {l : List (TypeKey × β)} {k : TypeKey} {v : β}
    (h : List.lookup k l = some v) : k ∈ l.map Prod.fst := by
  have : (List.lookup k l).isSome := by simp [h]
  rcases List.lookup_isSome_iff.mp this with ⟨p, hp, hk⟩
  exact List.mem_map.mpr ⟨p, hp, by simpa using (eq_of_beq hk).symm⟩

theorem mem_keysOf_of_extends {s s' : BuildState} (h : ∃ ext, s'.built = s.built ++ ext)
    {x : TypeKey} (hx : x ∈ keysOf s) : x ∈ keysOf s' := by
  rcases h with ⟨ext, he⟩
  simp only [keysOf, he, List.map_append]
  exact List.mem_append_left _ hx

theorem TopOrderL_nil (regs : List Registration) : TopOrderL regs [] := by
  intro i hi
  simp at hi

theorem TopOrderL_append {regs : List Registration} {l : List (TypeKey × Instance)}
    (h : TopOrderL regs l) {k : TypeKey} {inst : Instance}
    (hdeps : ∀ d ∈ depsOf regs k, d ∈ l.map Prod.fst) :
    TopOrderL regs (l ++ [(k, inst)]) := by
  intro i hi d hd
  rcases Nat.lt_or_ge i l.length with hlt | hge
  · have hg : (l ++ [(k, inst)])[i] = l[i] := List.getElem_append_left hlt
    rw [hg] at hd
    have hmem := h i hlt d hd
    rw [List.map_append, List.take_append_eq_append_take]
    have hz : i - (l.map Prod.fst).length = 0 := by
      simp only [List.length_map]
      omega
    rw [hz, List.take_zero, List.append_nil]
    exact hmem
  · have hlen : i = l.length := by
      have : i < l.length + 1 := by simpa using hi
      omega
    have hg : (l ++ [(k, inst)])[i] = (k, inst) :=
      List.getElem_concat_length l (k, inst) i hlen hi
    rw [hg] at hd
    have hmem := hdeps d hd
    rw [List.map_append, List.take_append_eq_append_take]
    have h1 : (l.map Prod.fst).take i = l.map Prod.fst := by
      apply List.take_of_length_le
      simp only [List.length_map]
      omega
    rw [h1]
    exact List.mem_append_left _ hmem

theorem InvSt_init (regs : List Registration) : InvSt regs ⟨[], []⟩ :=
  ⟨List.nodup_nil, TopOrderL_nil regs, fun x hx => absurd hx (by simp [keysOf]),
   fun x hx => absurd hx (by simp [keysOf])⟩

theorem resolveList_inv {regs : List Registration}
    {f : TypeKey → BuildState → Except (Error × BuildState) (Instance × BuildState)}
    (hfShape : ∀ k s, ∃ ext, (stateOfE (f k s)).built = s.built ++ ext)
    (hfInv : ∀ k s, InvSt regs s → InvSt regs (stateOfE (f k s)))
    (hfMem : ∀ k s, InvSt regs s → ∀ i s', f k s = .ok (i, s') → k ∈ keysOf s') :
    ∀ (ds : List TypeKey) (s : BuildState), InvSt regs s →
      InvSt regs (stateOfE (resolveList f ds s)) ∧
      (∀ insts s', resolveList f ds s = .ok (insts, s') → ∀ d ∈ ds, d ∈ keysOf s') := by
  intro ds
  induction ds with
  | nil =>
    intro s hs
    refine ⟨by simpa [resolveList, stateOfE] using hs, ?_⟩
    intro insts s' h d hd
    cases hd
  | cons d ds ih =>
    intro s hs
    cases h1 : f d s with
    | error es =>
      obtain ⟨e, serr⟩ := es
      have hth := hfInv d s hs
      rw [h1] at hth
      constructor
      · simpa [resolveList, h1, stateOfE] using hth
      · intro insts s' h
        simp only [resolveList, h1] at h
        cases h
    | ok p =>
      obtain ⟨i₁, s₁⟩ := p
      have hInv₁ : InvSt regs s₁ := by
        have hth := hfInv d s hs
        rw [h1] at hth
        simpa [stateOfE] using hth
      rcases ih s₁ hInv₁ with ⟨ihInv, ihMem⟩
      cases h2 : resolveList f ds s₁ with
      | error es =>
        obtain ⟨e, serr⟩ := es
        rw [h2] at ihInv
        constructor
        · simpa [resolveList, h1, h2, stateOfE] using ihInv
        · intro insts s' h
          simp only [resolveList, h1, h2] at h
          cases h
      | ok q =>
        obtain ⟨is₂, s₂⟩ := q
        rw [h2] at ihInv
        constructor
        · simpa [resolveList, h1, h2, stateOfE] using ihInv
        · intro insts s' h
          simp only [resolveList, h1, h2] at h
          cases h
          intro x hx
          rcases List.mem_cons.mp hx with rfl | hx'
          · have hmem₁ : x ∈ keysOf s₁ := hfMem x s hs i₁ s₁ h1
            refine mem_keysOf_of_extends ?_ hmem₁
            have hsh := resolveList_builtExtends hfShape ds s₁
            rw [h2] at hsh
            simpa [stateOfE] using hsh
          · exact ihMem is₂ _ h2 x hx'

theorem resolveKey_inv (regs : List Registration) :
    ∀ (fuel : Nat) (k : TypeKey) (s : BuildState), InvSt regs s →
      InvSt regs (stateOfE (resolveKey regs fuel k s)) ∧
      (∀ inst s', resolveKey regs fuel k s = .ok (inst, s') → k ∈ keysOf s') := by
  intro fuel
  induction fuel with
  | zero =>
    intro k s hs
    refine ⟨by simpa [resolveKey, stateOfE] using hs, ?_⟩
    intro inst s' h
    simp [resolveKey] at h
  | succ fuel ih =>
    intro k s hs
    have ihShape := resolveKey_builtExtends regs fuel
    have ihInv : ∀ k s, InvSt regs s → InvSt regs (stateOfE (resolveKey regs fuel k s)) :=
      fun k s h => (ih k s h).1
    have ihMem : ∀ k s, InvSt regs s → ∀ i s',
        resolveKey regs fuel k s = .ok (i, s') → k ∈ keysOf s' :=
      fun k s h => (ih k s h).2
    rcases resolveKey_succ_cases regs fuel k s with
      ⟨inst₀, h1, heq⟩ | ⟨h1, h2, heq⟩ | ⟨h1, h2, h3, heq⟩ |
      ⟨reg, h1, h2, h3, hrest⟩
    · refine ⟨by simpa [heq, stateOfE] using hs, ?_⟩
      intro inst s' h
      rw [heq] at h
      cases h
      exact lookup_some_mem_fst h1
    · refine ⟨by simpa [heq, stateOfE] using hs, ?_⟩
      intro inst s' h
      rw [heq] at h
      cases h
    · refine ⟨by simpa [heq, stateOfE] using hs, ?_⟩
      intro inst s' h
      rw [heq] at h
      cases h
    · have hkNot : k ∉ keysOf s := lookup_none_not_mem_fst h1
      have hInv₁ : InvSt regs ⟨s.pending ++ [k], s.built⟩ := by
        refine ⟨hs.nodup, hs.topo, hs.regd, ?_⟩
        intro x hx
        rw [List.mem_append]
        rintro (hp | hk)
        · exact hs.disj x hx hp
        · rw [List.mem_singleton] at hk
          subst hk
          exact hkNot hx
      have hList := resolveList_inv ihShape ihInv ihMem reg.deps ⟨s.pending ++ [k], s.built⟩ hInv₁
      rcases hrest with ⟨es, h4, heq⟩ | ⟨insts, s₂, fe, h4, h5, heq⟩ |
        ⟨insts, s₂, inst₁, h4, h5, heq⟩
      · obtain ⟨e, serr⟩ := es
        have hErrInv := hList.1
        rw [h4] at hErrInv
        refine ⟨by simpa [heq, stateOfE] using hErrInv, ?_⟩
        intro inst s' h
        rw [heq] at h
        cases h
      · have hErrInv := hList.1
        rw [h4] at hErrInv
        refine ⟨by simpa [heq, stateOfE] using hErrInv, ?_⟩
        intro inst s' h
        rw [heq] at h
        cases h
      · have hInv₂ : InvSt regs s₂ := by
          have := hList.1
          rw [h4] at this
          simpa [stateOfE] using this
        have hPend₂ : s₂.pending = s.pending ++ [k] :=
          resolveList_pending_ok (resolveKey_pending_ok regs fuel) reg.deps
            ⟨s.pending ++ [k], s.built⟩ insts s₂ h4
        have hDeps : ∀ d ∈ reg.deps, d ∈ keysOf s₂ := hList.2 insts s₂ h4
        have hkNot₂ : k ∉ keysOf s₂ := by
          intro hk
          have := hInv₂.disj k hk
          rw [hPend₂] at this
          exact this (List.mem_append_right _ (List.mem_singleton.mpr rfl))
        have hkeysf : keysOf ⟨s.pending, s₂.built ++ [(k, inst₁)]⟩ =
            keysOf s₂ ++ [k] := by
          simp [keysOf]
        have hInvF : InvSt regs ⟨s.pending, s₂.built ++ [(k, inst₁)]⟩ := by
          refine ⟨?_, ?_, ?_, ?_⟩
          · rw [hkeysf]
            refine List.Nodup.append hInv₂.nodup (List.nodup_singleton k) ?_
            intro x hx₁ hx₂
            rw [List.mem_singleton] at hx₂
            subst hx₂
            exact hkNot₂ hx₁
          · refine TopOrderL_append hInv₂.topo ?_
            rw [depsOf_of_findReg h3]
            exact hDeps
          · intro x hx
            rw [hkeysf] at hx
            rcases List.mem_append.mp hx with hx₁ | hx₂
            · exact hInv₂.regd x hx₁
            · rw [List.mem_singleton] at hx₂
              subst hx₂
              exact isRegistered_of_findReg h3
          · intro x hx
            rw [hkeysf] at hx
            rcases List.mem_append.mp hx with hx₁ | hx₂
            · have := hInv₂.disj x hx₁
              rw [hPend₂] at this
              intro hp
              exact this (List.mem_append_left _ hp)
            · rw [List.mem_singleton] at hx₂
              subst hx₂
              exact h2
        refine ⟨by simpa [heq, stateOfE] using hInvF, ?_⟩
        intro inst s' h
        rw [heq] at h
        cases h
        rw [hkeysf]
        exact List.mem_append_right _ (List.mem_singleton.mpr rfl)

theorem resolveList_reach {regs : List Registration}
    {f : TypeKey → BuildState → Except (Error × BuildState) (Instance × BuildState)}
    (hfReach : ∀ k s i s', f k s = .ok (i, s') →
      ∀ x ∈ keysOf s', x ∈ keysOf s ∨ Reaches regs k x) :
    ∀ (ds : List TypeKey) (s : BuildState) (insts : List Instance) (s' : BuildState),
      resolveList f ds s = .ok (insts, s') →
      ∀ x ∈ keysOf s', x ∈ keysOf s ∨ ∃ d ∈ ds, Reaches regs d x := by
  intro ds
  induction ds with
  | nil =>
    intro s insts s' h x hx
    simp only [resolveList] at h
    cases h
    exact .inl hx
  | cons d ds ih =>
    intro s insts s' h x hx
    cases h1 : f d s with
    | error es =>
      simp only [resolveList, h1] at h
      cases h
    | ok p =>
      obtain ⟨i₁, s₁⟩ := p
      simp only [resolveList, h1] at h
      cases h2 : resolveList f ds s₁ with
      | error es => rw [h2] at h; cases h
      | ok q =>
        obtain ⟨is₂, s₂⟩ := q
        rw [h2] at h
        cases h
        rcases ih s₁ is₂ _ h2 x hx with hx₁ | ⟨d', hd', hr⟩
        · rcases hfReach d s i₁ s₁ h1 x hx₁ with hx₀ | hr
          · exact .inl hx₀
          · exact .inr ⟨d, List.mem_cons_self d ds, hr⟩
        · exact .inr ⟨d', List.mem_cons_of_mem d hd', hr⟩

theorem resolveKey_reach (regs : List Registration) :
    ∀ (fuel : Nat) (k : TypeKey) (s : BuildState) (inst : Instance) (s' : BuildState),
      resolveKey regs fuel k s = .ok (inst, s') →
      ∀ x ∈ keysOf s', x ∈ keysOf s ∨ Reaches regs k x := by
  intro fuel
  induction fuel with
  | zero =>
    intro k s inst s' h
    simp [resolveKey] at h
  | succ fuel ih =>
    intro k s inst s' h x hx
    rcases resolveKey_succ_cases regs fuel k s with
      ⟨inst₀, h1, heq⟩ | ⟨h1, h2, heq⟩ | ⟨h1, h2, h3, heq⟩ |
      ⟨reg, h1, h2, h3, ⟨es, h4, heq⟩ | ⟨insts, s₂, fe, h4, h5, heq⟩ |
        ⟨insts, s₂, inst₁, h4, h5, heq⟩⟩ <;> rw [heq] at h
    · cases h; exact .inl hx
    · cases h
    · cases h
    · cases h
    · cases h
    · cases h
      rw [show keysOf ⟨s.pending, s₂.built ++ [(k, inst)]⟩ =
            keysOf s₂ ++ [k] by simp [keysOf]] at hx
      rcases List.mem_append.mp hx with hx₂ | hxk
      · rcases resolveList_reach ih reg.deps ⟨s.pending ++ [k], s.built⟩ insts s₂ h4 x hx₂ with
          hx₁ | ⟨d, hd, hr⟩
        · exact .inl hx₁
        · refine .inr (Reaches.step ?_ hr)
          rw [depsOf_of_findReg h3]
          exact hd
      · rw [List.mem_singleton] at hxk
        subst hxk
        exact .inr (Reaches.refl x)

theorem buildLoop_append (regs : List Registration) (fuel : Nat) :
    ∀ (l₁ l₂ : List Registration) (s : BuildState),
      buildLoop regs fuel (l₁ ++ l₂) s =
        match buildLoop regs fuel l₁ s with
        | .error es => .error es
        | .ok s' => buildLoop regs fuel l₂ s' := by
  intro l₁
  induction l₁ with
  | nil => intro l₂ s; simp [buildLoop]
  | cons r rs ih =>
    intro l₂ s
    simp only [List.cons_append, buildLoop]
    cases h1 : resolveKey regs fuel r.interface s with
    | error es => rfl
    | ok p => exact ih l₂ p.2

theorem buildLoop_builtExtends (regs : List Registration) (fuel : Nat) :
    ∀ (roots : List Registration) (s : BuildState),
      ∃ ext, (stateOfB (buildLoop regs fuel roots s)).built = s.built ++ ext := by
  intro roots
  induction roots with
  | nil => intro s; exact ⟨[], by simp [buildLoop, stateOfB]⟩
  | cons r rs ih =>
    intro s
    cases h1 : resolveKey regs fuel r.interface s with
    | error es =>
      obtain ⟨e, serr⟩ := es
      rcases resolveKey_builtExtends regs fuel r.interface s with ⟨ext, hext⟩
      rw [h1] at hext
      simp only [stateOfE] at hext
      exact ⟨ext, by simp only [buildLoop, h1, stateOfB]; exact hext⟩
    | ok p =>
      obtain ⟨i₁, s₁⟩ := p
      rcases resolveKey_builtExtends regs fuel r.interface s with ⟨ext₁, hext₁⟩
      rw [h1] at hext₁
      simp only [stateOfE] at hext₁
      rcases ih s₁ with ⟨ext₂, hext₂⟩
      refine ⟨ext₁ ++ ext₂, ?_⟩
      simp only [buildLoop, h1]
      rw [hext₂, hext₁, List.append_assoc]

theorem buildLoop_pending_ok (regs : List Registration) (fuel : Nat) :
    ∀ (roots : List Registration) (s : BuildState) (s' : BuildState),
      buildLoop regs fuel roots s = .ok s' → s'.pending = s.pending := by
  intro roots
  induction roots with
  | nil =>
    intro s s' h
    simp only [buildLoop] at h
    cases h
    rfl
  | cons r rs ih =>
    intro s s' h
    cases h1 : resolveKey regs fuel r.interface s with
    | error es =>
      simp only [buildLoop, h1] at h
      cases h
    | ok p =>
      obtain ⟨i₁, s₁⟩ := p
      simp only [buildLoop, h1] at h
      rw [ih s₁ s' h, resolveKey_pending_ok regs fuel r.interface s i₁ s₁ h1]

theorem buildLoop_inv (regs : List Registration) (fuel : Nat) :
    ∀ (roots : List Registration) (s : BuildState), InvSt regs s →
      InvSt regs (stateOfB (buildLoop regs fuel roots s)) ∧
      (∀ s', buildLoop regs fuel roots s = .ok s' → ∀ r ∈ roots, r.interface ∈ keysOf s') := by
  intro roots
  induction roots with
  | nil =>
    intro s hs
    refine ⟨by simpa [buildLoop, stateOfB] using hs, ?_⟩
    intro s' h r hr
    cases hr
  | cons r rs ih =>
    intro s hs
    cases h1 : resolveKey regs fuel r.interface s with
    | error es =>
      obtain ⟨e, serr⟩ := es
      have hInv := (resolveKey_inv regs fuel r.interface s hs).1
      rw [h1] at hInv
      refine ⟨by simpa [buildLoop, h1, stateOfB] using hInv, ?_⟩
      intro s' h
      simp only [buildLoop, h1] at h
      cases h
    | ok p =>
      obtain ⟨i₁, s₁⟩ := p
      have hInv₁ : InvSt regs s₁ := by
        have := (resolveKey_inv regs fuel r.interface s hs).1
        rw [h1] at this
        simpa [stateOfE] using this
      have hMem₁ : r.interface ∈ keysOf s₁ :=
        (resolveKey_inv regs fuel r.interface s hs).2 i₁ s₁ h1
      rcases ih s₁ hInv₁ with ⟨ihInv, ihMem⟩
      refine ⟨by simpa [buildLoop, h1, stateOfB] using ihInv, ?_⟩
      intro s' h r' hr'
      simp only [buildLoop, h1] at h
      rcases List.mem_cons.mp hr' with rfl | hr''
      · refine mem_keysOf_of_extends ?_ hMem₁
        rcases buildLoop_builtExtends regs fuel rs s₁ with ⟨ext, hext⟩
        rw [h] at hext
        exact ⟨ext, by simpa [stateOfB] using hext⟩
      · exact ihMem s' h r' hr''

theorem buildLoop_reach (regs : List Registration) (fuel : Nat) :
    ∀ (roots : List Registration) (s : BuildState) (s' : BuildState),
      buildLoop regs fuel roots s = .ok s' →
      ∀ x ∈ keysOf s', x ∈ keysOf s ∨ ∃ r ∈ roots, Reaches regs r.interface x := by
  intro roots
  induction roots with
  | nil =>
    intro s s' h x hx
    simp only [buildLoop] at h
    cases h
    exact .inl hx
  | cons r rs ih =>
    intro s s' h x hx
    cases h1 : resolveKey regs fuel r.interface s with
    | error es =>
      simp only [buildLoop, h1] at h
      cases h
    | ok p =>
      obtain ⟨i₁, s₁⟩ := p
      simp only [buildLoop, h1] at h
      rcases ih s₁ s' h x hx with hx₁ | ⟨r', hr', hrch⟩
      · rcases resolveKey_reach regs fuel r.interface s i₁ s₁ h1 x hx₁ with hx₀ | hrch
        · exact .inl hx₀
        · exact .inr ⟨r, List.mem_cons_self r rs, hrch⟩
      · exact .inr ⟨r', List.mem_cons_of_mem r hr', hrch⟩

theorem resolveList_classify {regs : List Registration}
    {f : TypeKey → BuildState → Except (Error × BuildState) (Instance × BuildState)}
    (p0 : List TypeKey)
    (hfPend : ∀ k s i s', f k s = .ok (i, s') → s'.pending = s.pending)
    (hfInv : ∀ k s, InvSt regs s → InvSt regs (stateOfE (f k s)))
    (hfCls : ∀ k s, s.pending = p0 → InvSt regs s → PendOK regs s →
        Admissible regs k s.pending → ∀ e s', f k s = .error (e, s') → GoodErr regs e s') :
    ∀ (ds : List TypeKey) (s : BuildState), s.pending = p0 → InvSt regs s → PendOK regs s →
      (∀ d ∈ ds, Admissible regs d p0) →
      ∀ e s', resolveList f ds s = .error (e, s') → GoodErr regs e s' := by
  intro ds
  induction ds with
  | nil =>
    intro s hp hi hpe ha e s' h
    simp only [resolveList] at h
    cases h
  | cons d ds ih =>
    intro s hp hi hpe ha e s' h
    cases h1 : f d s with
    | error es =>
      obtain ⟨e₁, s₁⟩ := es
      simp only [resolveList, h1] at h
      cases h
      exact hfCls d s hp hi hpe (hp ▸ ha d (List.mem_cons_self d ds)) e s' h1
    | ok p =>
      obtain ⟨i₁, s₁⟩ := p
      simp only [resolveList, h1] at h
      have hp₁ : s₁.pending = p0 := by
        rw [hfPend d s i₁ s₁ h1, hp]
      have hi₁ : InvSt regs s₁ := by
        have := hfInv d s hi
        rw [h1] at this
        simpa [stateOfE] using this
      have hpe₁ : PendOK regs s₁ := by
        rcases hpe with ⟨hc, hr, hn⟩
        rw [hp] at hc hr hn
        exact ⟨hp₁ ▸ hc, hp₁ ▸ hr, hp₁ ▸ hn⟩
      cases h2 : resolveList f ds s₁ with
      | error es =>
        obtain ⟨e₂, s₂⟩ := es
        rw [h2] at h
        cases h
        exact ih s₁ hp₁ hi₁ hpe₁ (fun d' hd' => ha d' (List.mem_cons_of_mem d hd')) e s' h2
      | ok q =>
        rw [h2] at h
        cases h

theorem InvSt_push {regs : List Registration} {s : BuildState} (hs : InvSt regs s)
    {k : TypeKey} (hkNot : k ∉ keysOf s) : InvSt regs ⟨s.pending ++ [k], s.built⟩ := by
  refine ⟨hs.nodup, hs.topo, hs.regd, ?_⟩
  intro x hx
  rw [List.mem_append]
  rintro (hp | hk)
  · exact hs.disj x hx hp
  · rw [List.mem_singleton] at hk
    subst hk
    exact hkNot hx

theorem resolveKey_classify (regs : List Registration) :
    ∀ (fuel : Nat) (k : TypeKey) (s : BuildState), InvSt regs s → PendOK regs s →
      Admissible regs k s.pending → regsD regs + 1 ≤ fuel + s.pending.length →
      ∀ e s', resolveKey regs fuel k s = .error (e, s') → GoodErr regs e s' := by
  intro fuel
  induction fuel with
  | zero =>
    intro k s hi hpe ha hfl e s' h
    exfalso
    have hsub : s.pending ⊆ (regs.map (fun r => r.interface)).dedup := fun x hx =>
      List.mem_dedup.mpr (isRegistered_mem_interfaces (hpe.2.1 x hx))
    have hle : s.pending.length ≤ regsD regs := (hpe.2.2.subperm hsub).length_le
    omega
  | succ fuel ih =>
    intro k s hi hpe ha hfl e s' h
    rcases resolveKey_succ_cases regs fuel k s with
      ⟨inst₀, h1, heq⟩ | ⟨h1, h2, heq⟩ | ⟨h1, h2, h3, heq⟩ |
      ⟨reg, h1, h2, h3, hrest⟩
    · rw [heq] at h
      cases h
    · rw [heq] at h
      cases h
      have hdw := dropWhile_ne_head h2
      have hne : s.pending.dropWhile (fun x => x != k) ≠ [] := by
        intro hnil
        rw [hnil] at hdw
        cases hdw
      rcases List.dropWhile_suffix (l := s.pending) (fun x => x != k) with ⟨t, ht⟩
      have hch : List.Chain' (DepEdge regs) (t ++ s.pending.dropWhile (fun x => x != k)) := by
        rw [ht]
        exact hpe.1
      have hchdw := (List.chain'_append.mp hch).2.1
      have hlastEq : (s.pending.dropWhile (fun x => x != k)).getLast? = s.pending.getLast? := by
        conv_rhs => rw [← ht]
        rw [List.getLast?_append_of_ne_nil t hne]
      have hpne : s.pending ≠ [] := List.ne_nil_of_mem h2
      refine .inl ⟨s.pending.dropWhile (fun x => x != k) ++ [k], k, rfl, ?_, ?_, ?_, ?_, ?_, ?_⟩
      · rw [List.head?_append, hdw]
        rfl
      · exact List.getLast?_concat _
      · rcases ha with ⟨hemp, _⟩ | ⟨last, hlast, hdep⟩
        · exact absurd hemp hpne
        · refine List.chain'_append.mpr ⟨hchdw, List.chain'_singleton k, ?_⟩
          intro x hx y hy
          rw [hlastEq, hlast] at hx
          rw [Option.mem_def] at hx hy
          injection hx with hx
          injection hy with hy
          subst hx
          subst hy
          exact hdep
      · have : 0 < (s.pending.dropWhile (fun x => x != k)).length :=
          List.length_pos.mpr hne
        simp only [List.length_append, List.length_singleton]
        omega
      · exact hpe.2.1 k h2
      · intro x hx
        rcases List.mem_append.mp hx with hx₁ | hx₂
        · have hxp : x ∈ s.pending := List.dropWhile_subset _ hx₁
          intro hxk
          exact hi.disj x hxk hxp
        · rw [List.mem_singleton] at hx₂
          subst hx₂
          exact lookup_none_not_mem_fst h1
    · rw [heq] at h
      cases h
      refine .inr (.inl ⟨k, rfl, by simp [isRegistered, h3], ?_⟩)
      rcases ha with ⟨hemp, hreg⟩ | ⟨last, hlast, hdep⟩
      · rw [isRegistered, h3] at hreg
        cases hreg
      · cases hfind : findReg regs last with
        | none =>
          rw [depsOf, hfind] at hdep
          cases hdep
        | some r₀ =>
          refine ⟨r₀, (findReg_eq_some hfind).1, ?_⟩
          rw [depsOf_of_findReg hfind] at hdep
          exact hdep
    · rcases hrest with ⟨es, h4, heq⟩ | ⟨insts, s₂, fe, h4, h5, heq⟩ |
        ⟨insts, s₂, inst₁, h4, h5, heq⟩
      · obtain ⟨e₁, s₁⟩ := es
        rw [heq] at h
        cases h
        have hkNot : k ∉ keysOf s := lookup_none_not_mem_fst h1
        have hInv₁ := InvSt_push hi hkNot
        have hPend₁ : PendOK regs ⟨s.pending ++ [k], s.built⟩ := by
          refine ⟨?_, ?_, ?_⟩
          · refine List.chain'_append.mpr ⟨hpe.1, List.chain'_singleton k, ?_⟩
            intro x hx y hy
            rw [Option.mem_def] at hx hy
            injection hy with hy
            subst hy
            rcases ha with ⟨hemp, _⟩ | ⟨last, hlast, hdep⟩
            · rw [hemp] at hx
              cases hx
            · rw [hlast] at hx
              injection hx with hx
              subst hx
              exact hdep
          · intro x hx
            rcases List.mem_append.mp hx with hx₁ | hx₂
            · exact hpe.2.1 x hx₁
            · rw [List.mem_singleton] at hx₂
              subst hx₂
              exact isRegistered_of_findReg h3
          · refine List.Nodup.append hpe.2.2 (List.nodup_singleton k) ?_
            intro x hx₁ hx₂
            rw [List.mem_singleton] at hx₂
            subst hx₂
            exact h2 hx₁
        have hAdm : ∀ d ∈ reg.deps, Admissible regs d (s.pending ++ [k]) := by
          intro d hd
          refine .inr ⟨k, List.getLast?_concat _, ?_⟩
          rw [depsOf_of_findReg h3]
          exact hd
        exact resolveList_classify (s.pending ++ [k])
          (resolveKey_pending_ok regs fuel)
          (fun k' s'' hI => (resolveKey_inv regs fuel k' s'' hI).1)
          (fun k' s'' hp hI hP hA e' s''' herr =>
            ih k' s'' hI hP hA
              (by rw [hp]; simp only [List.length_append, List.length_singleton]; omega)
              e' s''' herr)
          reg.deps ⟨s.pending ++ [k], s.built⟩ rfl hInv₁ hPend₁ hAdm e s' h4
      · rw [heq] at h
        cases h
        exact .inr (.inr ⟨k, fe, reg, insts, rfl, h3, h5⟩)
      · rw [heq] at h
        cases h

theorem indexOf_lt_of_mem_take {M : List TypeKey} :
    ∀ (i : Nat), ∀ d ∈ M.take i, M.indexOf d < i := by
  induction M with
  | nil =>
    intro i d hd
    simp at hd
  | cons x xs ih =>
    intro i d hd
    cases i with
    | zero => simp at hd
    | succ i =>
      rw [List.take_succ_cons] at hd
      rcases List.mem_cons.mp hd with rfl | hd'
      · simp [List.indexOf_cons]
      · by_cases hxd : x = d
        · subst hxd
          simp [List.indexOf_cons]
        · rw [List.indexOf_cons]
          have hb : (x == d) = false := by simp [hxd]
          rw [hb]
          have := ih i d hd'
          simp only [cond_false]
          omega

theorem topOrder_mem_lt {regs : List Registration} {l : List (TypeKey × Instance)}
    (hT : TopOrderL regs l) {a d : TypeKey}
    (ha : a ∈ l.map Prod.fst) (hd : d ∈ depsOf regs a) :
    d ∈ l.map Prod.fst ∧
      (l.map Prod.fst).indexOf d < (l.map Prod.fst).indexOf a := by
  have hlt : (l.map Prod.fst).indexOf a < (l.map Prod.fst).length :=
    List.indexOf_lt_length.mpr ha
  have hidx : (l.map Prod.fst).indexOf a < l.length := by simpa using hlt
  have hget : (l[(l.map Prod.fst).indexOf a]).1 = a := by
    have hm : (l.map Prod.fst)[(l.map Prod.fst).indexOf a] = a :=
      List.getElem_indexOf hlt
    rw [List.getElem_map] at hm
    exact hm
  have htake := hT ((l.map Prod.fst).indexOf a) hidx d (by rw [hget]; exact hd)
  exact ⟨List.mem_of_mem_take htake, indexOf_lt_of_mem_take _ d htake⟩

theorem reach_indexOf_le {regs : List Registration} {l : List (TypeKey × Instance)}
    (hT : TopOrderL regs l) {a b : TypeKey} (hr : Reaches regs a b)
    (ha : a ∈ l.map Prod.fst) :
    b ∈ l.map Prod.fst ∧
      (l.map Prod.fst).indexOf b ≤ (l.map Prod.fst).indexOf a := by
  induction hr with
  | refl k => exact ⟨ha, Nat.le_refl _⟩
  | step hdep hrch ih =>
    rcases topOrder_mem_lt hT ha hdep with ⟨hb, hlt⟩
    rcases ih hb with ⟨hc, hle⟩
    exact ⟨hc, Nat.le_trans hle (Nat.le_of_lt hlt)⟩

theorem cycle_not_built {regs : List Registration} {l : List (TypeKey × Instance)}
    (hT : TopOrderL regs l) {k : TypeKey} (hc : CycleAt regs k) :
    k ∉ l.map Prod.fst := by
  intro hk
  rcases hc with ⟨d, hd, hr⟩
  rcases topOrder_mem_lt hT hk hd with ⟨hdm, hlt⟩
  rcases reach_indexOf_le hT hr hdm with ⟨_, hle⟩
  omega

theorem chain_reaches_last {regs : List Registration} :
    ∀ (p : List TypeKey), List.Chain' (DepEdge regs) p →
      ∀ {a b : TypeKey}, p.head? = some a → p.getLast? = some b → Reaches regs a b := by
  intro p
  induction p with
  | nil =>
    intro _ a b h1 h2
    cases h1
  | cons x xs ih =>
    intro h a b h1 h2
    injection h1 with h1
    subst h1
    cases xs with
    | nil =>
      simp only [List.getLast?_singleton] at h2
      injection h2 with h2
      subst h2
      exact Reaches.refl _
    | cons y ys =>
      have hedge : DepEdge regs x y := (List.chain'_cons.mp h).1
      have hch := (List.chain'_cons.mp h).2
      have h2' : (y :: ys).getLast? = some b := by rwa [List.getLast?_cons_cons] at h2
      exact Reaches.step hedge (ih hch rfl h2')

theorem circular_path_cycleAt {regs : List Registration} {p : List TypeKey} {k₀ : TypeKey}
    (hh : p.head? = some k₀) (hl : p.getLast? = some k₀)
    (hc : List.Chain' (DepEdge regs) p) (hlen : 2 ≤ p.length) : CycleAt regs k₀ := by
  cases p with
  | nil => cases hh
  | cons x xs =>
    injection hh with hh
    subst hh
    cases xs with
    | nil => simp at hlen
    | cons y ys =>
      have hedge : DepEdge regs x y := (List.chain'_cons.mp hc).1
      have hch := (List.chain'_cons.mp hc).2
      have hl' : (y :: ys).getLast? = some x := by rwa [List.getLast?_cons_cons] at hl
      exact ⟨y, hedge, chain_reaches_last (y :: ys) hch rfl hl'⟩

theorem isRegistered_iff {regs : List Registration} {k : TypeKey} :
    isRegistered regs k = true ↔ ∃ r ∈ regs, r.interface = k := by
  constructor
  · intro h
    simp only [isRegistered, Option.isSome_iff_exists] at h
    rcases h with ⟨r, hr⟩
    rcases findReg_eq_some hr with ⟨hm, hi⟩
    exact ⟨r, hm, hi⟩
  · rintro ⟨r, hm, rfl⟩
    exact isRegistered_of_mem hm

theorem regsD_le (regs : List Registration) : regsD regs ≤ regs.length := by
  have h := (List.dedup_sublist (regs.map (fun r => r.interface))).length_le
  simpa [regsD] using h

theorem buildLoop_classify (regs : List Registration) (fuel : Nat)
    (hfl : regsD regs + 1 ≤ fuel) :
    ∀ (roots : List Registration) (s : BuildState), (∀ r ∈ roots, r ∈ regs) →
      s.pending = [] → InvSt regs s →
      ∀ e s', buildLoop regs fuel roots s = .error (e, s') → GoodErr regs e s' := by
  intro roots
  induction roots with
  | nil =>
    intro s hmem hp hi e s' h
    simp only [buildLoop] at h
    cases h
  | cons r rs ih =>
    intro s hmem hp hi e s' h
    cases h1 : resolveKey regs fuel r.interface s with
    | error es =>
      obtain ⟨e₁, s₁⟩ := es
      simp only [buildLoop, h1] at h
      cases h
      refine resolveKey_classify regs fuel r.interface s hi ?_ ?_ ?_ e s' h1
      · exact ⟨by rw [hp]; exact List.chain'_nil, fun x hx => absurd hx (by rw [hp]; simp),
               by rw [hp]; exact List.nodup_nil⟩
      · exact .inl ⟨hp, isRegistered_of_mem (hmem r (List.mem_cons_self r rs))⟩
      · rw [hp]
        simpa using hfl
    | ok p =>
      obtain ⟨i₁, s₁⟩ := p
      simp only [buildLoop, h1] at h
      have hp₁ : s₁.pending = [] := by
        rw [resolveKey_pending_ok regs fuel r.interface s i₁ s₁ h1, hp]
      have hi₁ : InvSt regs s₁ := by
        have := (resolveKey_inv regs fuel r.interface s hi).1
        rw [h1] at this
        simpa [stateOfE] using this
      exact ih s₁ (fun r' hr' => hmem r' (List.mem_cons_of_mem r hr')) hp₁ hi₁ e s' h

theorem buildSt_classify (regs : List Registration) :
    ∀ e s', buildSt regs = .error (e, s') → GoodErr regs e s' ∧ InvSt regs s' := by
  intro e s' h
  constructor
  · refine buildLoop_classify regs (regs.length + 1) ?_ regs ⟨[], []⟩ (fun r hr => hr) rfl
      (InvSt_init regs) e s' h
    have := regsD_le regs
    omega
  · have := (buildLoop_inv regs (regs.length + 1) regs ⟨[], []⟩ (InvSt_init regs)).1
    rw [show buildLoop regs (regs.length + 1) regs ⟨[], []⟩ = buildSt regs from rfl, h] at this
    simpa [stateOfB] using this

theorem buildSt_ok_inv (regs : List Registration) :
    ∀ s', buildSt regs = .ok s' →
      InvSt regs s' ∧ (∀ r ∈ regs, r.interface ∈ keysOf s') := by
  intro s' h
  have hl := buildLoop_inv regs (regs.length + 1) regs ⟨[], []⟩ (InvSt_init regs)
  constructor
  · have := hl.1
    rw [show buildLoop regs (regs.length + 1) regs ⟨[], []⟩ = buildSt regs from rfl, h] at this
    simpa [stateOfB] using this
  · exact hl.2 s' h

theorem build_ok_buildSt {regs : List Registration} {built : Container}
    (h : build regs = .ok built) : ∃ sF, buildSt regs = .ok sF ∧ sF.built = built := by
  cases hb : buildSt regs with
  | error es =>
    obtain ⟨e, s⟩ := es
    simp only [build, hb] at h
    cases h
  | ok sF =>
    simp only [build, hb] at h
    cases h
    exact ⟨sF, rfl, rfl⟩

/-- C1: for every set of registrations whose dependency graph is acyclic
and complete (equivalently: whenever `build()` succeeds), the factories
are invoked in a topological order induced by the declared dependency
edges — every component's dependencies are built before it, and the built
keys are exactly the registered interfaces — which is in general not
registration order; ties between independent subtrees (no earlier
registration reaches the later one) are broken by original registration
order. -/
theorem c1_build_topological_order (regs : List Registration) (built : Container)
    (h : build regs = .ok built) : BuildTopo regs built ∧ TieBreak regs built := by
  rcases build_ok_buildSt h with ⟨sF, hb, hsb⟩
  rcases buildSt_ok_inv regs sF hb with ⟨hInv, hRoots⟩
  subst hsb
  constructor
  · constructor
    · intro k
      constructor
      · intro hk
        exact hInv.regd k hk
      · intro hk
        rcases isRegistered_iff.mp hk with ⟨r, hr, rfl⟩
        exact hRoots r hr
    · exact hInv.topo
  · intro pre r₁ mid r₂ post hsplit hnr i j hi hj hgi hgj
    have hsplit' : regs = (pre ++ [r₁]) ++ (mid ++ r₂ :: post) := by
      rw [hsplit]
      simp
    have hb' : buildLoop regs (regs.length + 1) ((pre ++ [r₁]) ++ (mid ++ r₂ :: post))
        ⟨[], []⟩ = .ok sF := by
      rw [← hsplit']
      exact hb
    rw [buildLoop_append regs (regs.length + 1) (pre ++ [r₁]) (mid ++ r₂ :: post) ⟨[], []⟩]
      at hb'
    cases hmid : buildLoop regs (regs.length + 1) (pre ++ [r₁]) ⟨[], []⟩ with
    | error es =>
      simp only [hmid] at hb'
      cases hb'
    | ok sMid =>
      simp only [hmid] at hb'
      have hInvLoop := buildLoop_inv regs (regs.length + 1) (pre ++ [r₁]) ⟨[], []⟩
        (InvSt_init regs)
      have hr₁mem : r₁.interface ∈ keysOf sMid :=
        hInvLoop.2 sMid hmid r₁ (List.mem_append_right _ (List.mem_singleton.mpr rfl))
      have hr₂not : r₂.interface ∉ keysOf sMid := by
        intro hmem
        rcases buildLoop_reach regs (regs.length + 1) (pre ++ [r₁]) ⟨[], []⟩ sMid hmid
            r₂.interface hmem with hinit | ⟨r', hr', hreach⟩
        · simp [keysOf] at hinit
        · exact hnr r' hr' hreach
      rcases buildLoop_builtExtends regs (regs.length + 1) (mid ++ r₂ :: post) sMid with
        ⟨ext, hext⟩
      rw [hb'] at hext
      simp only [stateOfB] at hext
      have hNodup : (sF.built.map Prod.fst).Nodup := hInv.nodup
      have hiM : i < (sF.built.map Prod.fst).length := by simpa using hi
      have hjM : j < (sF.built.map Prod.fst).length := by simpa using hj
      have hMi : (sF.built.map Prod.fst)[i] = r₁.interface := by
        rw [List.getElem_map]
        exact hgi
      have hMj : (sF.built.map Prod.fst)[j] = r₂.interface := by
        rw [List.getElem_map]
        exact hgj
      have hieq : (sF.built.map Prod.fst).indexOf r₁.interface = i := by
        rw [← hMi]
        exact List.indexOf_getElem hNodup i hiM
      have hjeq : (sF.built.map Prod.fst).indexOf r₂.interface = j := by
        rw [← hMj]
        exact List.indexOf_getElem hNodup j hjM
      have hMsplit : sF.built.map Prod.fst = keysOf sMid ++ ext.map Prod.fst := by
        rw [hext, List.map_append]
        rfl
      have hi' : (sF.built.map Prod.fst).indexOf r₁.interface < (keysOf sMid).length := by
        rw [hMsplit, List.indexOf_append_of_mem hr₁mem]
        exact List.indexOf_lt_length.mpr hr₁mem
      have hj' : (keysOf sMid).length ≤ (sF.built.map Prod.fst).indexOf r₂.interface := by
        rw [hMsplit, List.indexOf_append_of_not_mem hr₂not]
        omega
      omega

/-- Witness for C1 at a concrete input whose build order differs from its
registration order. -/
theorem c1_witness :
    build exTopo = .ok exTopoBuilt ∧
    (BuildTopo exTopo exTopoBuilt ∧ TieBreak exTopo exTopoBuilt) :=
  ⟨by rfl, c1_build_topological_order exTopo exTopoBuilt (by rfl)⟩

/-- C2: for every successful build, every registered interface's factory
is invoked exactly once (its key appears exactly once in the
factory-invocation order, even with diamond dependencies), and resolving
a key already in `built` returns the cached handle with the BuildContext
unchanged — the factory is not re-invoked. -/
theorem c2_factory_invoked_once (regs : List Registration) (built : Container)
    (h : build regs = .ok built) :
    (∀ r ∈ regs, List.count r.interface (built.map Prod.fst) = 1) ∧
    (∀ (fuel : Nat) (k : TypeKey) (s : BuildState) (inst : Instance),
        List.lookup k s.built = some inst →
        resolveKey regs (fuel + 1) k s = .ok (inst, s)) := by
  rcases build_ok_buildSt h with ⟨sF, hb, hsb⟩
  rcases buildSt_ok_inv regs sF hb with ⟨hInv, hRoots⟩
  subst hsb
  constructor
  · intro r hr
    exact List.count_eq_one_of_mem hInv.nodup (hRoots r hr)
  · intro fuel k s inst hl
    simp [resolveKey, hl]

/-- Witness for C2 on the diamond example. -/
theorem c2_witness :
    build exDiamond = .ok exDiamondBuilt ∧
    ((∀ r ∈ exDiamond, List.count r.interface (exDiamondBuilt.map Prod.fst) = 1) ∧
     (∀ (fuel : Nat) (k : TypeKey) (s : BuildState) (inst : Instance),
        List.lookup k s.built = some inst →
        resolveKey exDiamond (fuel + 1) k s = .ok (inst, s))) :=
  ⟨by rfl, c2_factory_invoked_once exDiamond exDiamondBuilt (by rfl)⟩

/-- C7: on a container produced by a successful build, `resolve` returns
the stored shared handle for every registered interface and the `NotFound`
error for every unregistered one; being a total function into `Result`, it
never panics, and it does not modify the container. -/
theorem c7_container_resolve (regs : List Registration) (built : Container)
    (h : build regs = .ok built) (k : TypeKey) :
    (isRegistered regs k = true →
      ∃ inst, List.lookup k built = some inst ∧
        resolveContainer built k = Except.ok inst) ∧
    (isRegistered regs k = false →
      resolveContainer built k = Except.error (Error.NotFound k)) := by
  rcases build_ok_buildSt h with ⟨sF, hb, hsb⟩
  rcases buildSt_ok_inv regs sF hb with ⟨hInv, hRoots⟩
  subst hsb
  constructor
  · intro hk
    rcases isRegistered_iff.mp hk with ⟨r, hr, rfl⟩
    have hmem := hRoots r hr
    have hsome := mem_fst_lookup_isSome hmem
    rcases Option.isSome_iff_exists.mp hsome with ⟨inst, hl⟩
    exact ⟨inst, hl, by simp [resolveContainer, hl]⟩
  · intro hk
    cases hl : List.lookup k sF.built with
    | some inst =>
      have hmem := lookup_some_mem_fst hl
      have hreg := hInv.regd k hmem
      rw [hreg] at hk
      cases hk
    | none => simp [resolveContainer, hl]

/-- Witness for C7: a registered key resolves to its handle, an unknown
key yields NotFound. -/
theorem c7_witness :
    build exTopo = .ok exTopoBuilt ∧
    ((isRegistered exTopo 10 = true →
        ∃ inst, List.lookup 10 exTopoBuilt = some inst ∧
          resolveContainer exTopoBuilt 10 = Except.ok inst) ∧
      (isRegistered exTopo 10 = false →
        resolveContainer exTopoBuilt 10 = Except.error (Error.NotFound 10))) ∧
    ((isRegistered exTopo 99 = true →
        ∃ inst, List.lookup 99 exTopoBuilt = some inst ∧
          resolveContainer exTopoBuilt 99 = Except.ok inst) ∧
      (isRegistered exTopo 99 = false →
        resolveContainer exTopoBuilt 99 = Except.error (Error.NotFound 99))) :=
  ⟨by rfl, c7_container_resolve exTopo exTopoBuilt (by rfl) 10,
    c7_container_resolve exTopo exTopoBuilt (by rfl) 99⟩

/-- C8: `build` is deterministic — two successful runs on the same
registration sequence produce the same factory-invocation order, and
resolution on the two containers returns identical instances. -/
theorem c8_build_deterministic (regs : List Registration) (b₁ b₂ : Container)
    (h₁ : build regs = .ok b₁) (h₂ : build regs = .ok b₂) :
    b₁.map Prod.fst = b₂.map Prod.fst ∧
    ∀ k, resolveContainer b₁ k = resolveContainer b₂ k := by
  rw [h₁] at h₂
  cases h₂
  exact ⟨rfl, fun k => rfl⟩

/-- Witness for C8. -/
theorem c8_witness :
    build exTopo = .ok exTopoBuilt ∧
    (exTopoBuilt.map Prod.fst = exTopoBuilt.map Prod.fst ∧
     ∀ k, resolveContainer exTopoBuilt k = resolveContainer exTopoBuilt k) :=
  ⟨by rfl, c8_build_deterministic exTopo exTopoBuilt exTopoBuilt (by rfl) (by rfl)⟩

theorem buildSt_inv_any (regs : List Registration) :
    InvSt regs (stateOfB (buildSt regs)) :=
  (buildLoop_inv regs (regs.length + 1) regs ⟨[], []⟩ (InvSt_init regs)).1

theorem buildTrace_eq (regs : List Registration) :
    buildTrace regs = keysOf (stateOfB (buildSt regs)) := by
  cases hb : buildSt regs with
  | error es =>
    obtain ⟨e, s⟩ := es
    simp [buildTrace, stateOfB, hb]
  | ok s => simp [buildTrace, stateOfB, hb]

/-- Counterexample to C3 as stated: this registry contains a dependency
cycle, yet `build()` fails with UnregisteredDependency 9 — not with
CircularDependency — because the missing dependency is found first. -/
theorem c3_counterexample :
    (∃ r ∈ exMix, CycleAt exMix r.interface) ∧
    buildError exMix = some (Error.UnregisteredDependency 9) ∧
    ∀ p, buildError exMix ≠ some (Error.CircularDependency p) := by
  refine ⟨⟨⟨1, [2], ParameterMap.empty, canonicalFactory 1⟩,
      List.mem_cons_of_mem _ (List.mem_cons_self _ _),
      ⟨2, by decide, Reaches.step (show (1 : TypeKey) ∈ depsOf exMix 2 by decide)
        (Reaches.refl 1)⟩⟩, by rfl, ?_⟩
  intro p h
  rw [show buildError exMix = some (Error.UnregisteredDependency 9) from rfl] at h
  simp at h

/-- C3 (amended): for every complete set of registrations (every declared
dependency registered) containing a dependency cycle, `build()` fails with
`CircularDependency` whose path runs from the first pending ancestor to
the revisited key inclusive — it is nonempty, starts and ends with the
revisited key, follows declared dependency edges — and no factory of any
key on the reported path, nor of any key on a dependency cycle, is ever
invoked.  The registry's factories must not themselves fail: a failing
factory of an unrelated component aborts the build with its
ParameterResolutionError / ConstructionError first (spec 4.3 step 2e). -/
theorem c3_cycle_amended (regs : List Registration)
    (hComplete : ∀ r ∈ regs, ∀ d ∈ r.deps, isRegistered regs d = true)
    (hNoFail : ∀ r ∈ regs, ∀ insts fe, r.factory insts r.params ≠ Except.error fe)
    (hCyc : ∃ r ∈ regs, CycleAt regs r.interface) :
    ∃ p, buildError regs = some (Error.CircularDependency p) ∧
      p ≠ [] ∧ p.head? = p.getLast? ∧ List.Chain' (DepEdge regs) p ∧ 2 ≤ p.length ∧
      (∀ x ∈ p, x ∉ buildTrace regs) ∧
      (∀ k, CycleAt regs k → k ∉ buildTrace regs) := by
  cases hb : buildSt regs with
  | ok sF =>
    exfalso
    rcases hCyc with ⟨r, hr, hc⟩
    rcases buildSt_ok_inv regs sF hb with ⟨hInv, hRoots⟩
    exact cycle_not_built hInv.topo hc (hRoots r hr)
  | error es =>
    obtain ⟨e, serr⟩ := es
    rcases buildSt_classify regs e serr hb with ⟨hge, hInvErr⟩
    have htr : buildTrace regs = keysOf serr := by
      simp [buildTrace, hb]
    rcases hge with ⟨p, k₀, rfl, hh, hl, hch, hlen, hreg, hnb⟩ |
      ⟨k', rfl, hunreg, r', hr', hkdep⟩ | ⟨k₁, fe, reg, insts, rfl, hfind, hfact⟩
    · refine ⟨p, ?_, ?_, ?_, hch, hlen, ?_, ?_⟩
      · simp [buildError, hb]
      · intro hnil
        rw [hnil] at hh
        cases hh
      · rw [hh, hl]
      · intro x hx
        rw [htr]
        exact hnb x hx
      · intro k hck
        rw [htr]
        exact cycle_not_built hInvErr.topo hck
    · exfalso
      have := hComplete r' hr' k' hkdep
      rw [this] at hunreg
      cases hunreg
    · exact absurd hfact (hNoFail reg (findReg_eq_some hfind).1 insts fe)

/-- Witness for the amended C3 on the spec's three-key cycle. -/
theorem c3_witness :
    (∀ r ∈ exCyc, ∀ d ∈ r.deps, isRegistered exCyc d = true) ∧
    (∀ r ∈ exCyc, ∀ insts fe, r.factory insts r.params ≠ Except.error fe) ∧
    (∃ r ∈ exCyc, CycleAt exCyc r.interface) ∧
    (∃ p, buildError exCyc = some (Error.CircularDependency p) ∧
      p ≠ [] ∧ p.head? = p.getLast? ∧ List.Chain' (DepEdge exCyc) p ∧ 2 ≤ p.length ∧
      (∀ x ∈ p, x ∉ buildTrace exCyc) ∧
      (∀ k, CycleAt exCyc k → k ∉ buildTrace exCyc)) := by
  have hcyc : ∃ r ∈ exCyc, CycleAt exCyc r.interface :=
    ⟨⟨1, [2], ParameterMap.empty, canonicalFactory 1⟩, List.mem_cons_self _ _,
      ⟨2, by decide,
        Reaches.step (show (3 : TypeKey) ∈ depsOf exCyc 2 by decide)
          (Reaches.step (show (1 : TypeKey) ∈ depsOf exCyc 3 by decide) (Reaches.refl 1))⟩⟩
  have hnofail : ∀ r ∈ exCyc, ∀ insts fe, r.factory insts r.params ≠ Except.error fe := by
    intro r hr insts fe hcontra
    simp only [exCyc, List.mem_cons, List.not_mem_nil, or_false] at hr
    rcases hr with rfl | rfl | rfl <;> simp [canonicalFactory] at hcontra
  exact ⟨by decide, hnofail, hcyc, c3_cycle_amended exCyc (by decide) hnofail hcyc⟩

/-- Counterexample to C4 as stated: registration 2 declares the
unregistered dependency 9, yet `build()` fails with
UnregisteredDependency 8 — the first missing key found — not 9. -/
theorem c4_counterexample :
    (∃ r ∈ exMiss2, 9 ∈ r.deps) ∧ isRegistered exMiss2 9 = false ∧
    buildError exMiss2 = some (Error.UnregisteredDependency 8) ∧
    buildError exMiss2 ≠ some (Error.UnregisteredDependency 9) := by
  decide

/-- C4 (amended): for every registration A declaring a dependency on an
unregistered interface X (in a builder-produced registry, whose
interfaces are unique), `build()` fails and no factory of any component
reaching X — in particular A's — is ever invoked; if moreover X is the
only unregistered declared dependency, no registered key lies on a
dependency cycle, and no factory itself fails, the error is precisely
`UnregisteredDependency X` (a failing factory of an unrelated component
would abort with its ParameterResolutionError / ConstructionError
first, spec 4.3 step 2e). -/
theorem c4_missing_amended (regs : List Registration) (A : Registration) (X : TypeKey)
    (hNodup : (regs.map (fun r => r.interface)).Nodup)
    (hA : A ∈ regs) (hX : X ∈ A.deps) (hXun : isRegistered regs X = false) :
    (buildError regs).isSome = true ∧
    (∀ k, Reaches regs k X → k ∉ buildTrace regs) ∧
    ((∀ r ∈ regs, ∀ d ∈ r.deps, d = X ∨ isRegistered regs d = true) →
      (∀ r ∈ regs, ¬ CycleAt regs r.interface) →
      (∀ r ∈ regs, ∀ insts fe, r.factory insts r.params ≠ Except.error fe) →
      buildError regs = some (Error.UnregisteredDependency X)) := by
  have hreachAX : Reaches regs A.interface X :=
    Reaches.step (by rw [depsOf_of_findReg (findReg_of_nodup hNodup hA)]; exact hX)
      (Reaches.refl X)
  have hnotrace : ∀ k, Reaches regs k X → k ∉ buildTrace regs := by
    intro k hrk hkmem
    rw [buildTrace_eq] at hkmem
    have hInvAny := buildSt_inv_any regs
    rcases reach_indexOf_le hInvAny.topo hrk hkmem with ⟨hXmem, _⟩
    have := hInvAny.regd X hXmem
    rw [this] at hXun
    cases hXun
  refine ⟨?_, hnotrace, ?_⟩
  · cases hb : buildSt regs with
    | error es =>
      obtain ⟨e, s⟩ := es
      simp [buildError, hb]
    | ok sF =>
      exfalso
      rcases buildSt_ok_inv regs sF hb with ⟨hInv, hRoots⟩
      refine hnotrace A.interface hreachAX ?_
      rw [buildTrace_eq, hb]
      exact hRoots A hA
  · intro hOnly hNoCyc hNoFail
    cases hb : buildSt regs with
    | ok sF =>
      exfalso
      rcases buildSt_ok_inv regs sF hb with ⟨hInv, hRoots⟩
      refine hnotrace A.interface hreachAX ?_
      rw [buildTrace_eq, hb]
      exact hRoots A hA
    | error es =>
      obtain ⟨e, serr⟩ := es
      rcases buildSt_classify regs e serr hb with ⟨hge, _⟩
      rcases hge with ⟨p, k₀, rfl, hh, hl, hch, hlen, hreg, hnb⟩ |
        ⟨k', rfl, hunreg, r', hr', hkdep⟩ | ⟨k₁, fe, reg, insts, rfl, hfind, hfact⟩
      · exfalso
        have hck : CycleAt regs k₀ := circular_path_cycleAt hh hl hch hlen
        rcases isRegistered_iff.mp hreg with ⟨r, hr, hri⟩
        exact hNoCyc r hr (hri ▸ hck)
      · rcases hOnly r' hr' k' hkdep with rfl | hregk
        · simp [buildError, hb]
        · rw [hregk] at hunreg
          cases hunreg
      · exact absurd hfact (hNoFail reg (findReg_eq_some hfind).1 insts fe)

/-- Witness for the amended C4 on a one-registration registry. -/
theorem c4_witness :
    ((exMissOnly.map (fun r => r.interface)).Nodup ∧
      (⟨1, [9], ParameterMap.empty, canonicalFactory 1⟩ : Registration) ∈ exMissOnly ∧
      (9 : TypeKey) ∈ (⟨1, [9], ParameterMap.empty, canonicalFactory 1⟩ : Registration).deps ∧
      isRegistered exMissOnly 9 = false) ∧
    ((buildError exMissOnly).isSome = true ∧
      (∀ k, Reaches exMissOnly k 9 → k ∉ buildTrace exMissOnly) ∧
      ((∀ r ∈ exMissOnly, ∀ d ∈ r.deps, d = 9 ∨ isRegistered exMissOnly d = true) →
        (∀ r ∈ exMissOnly, ¬ CycleAt exMissOnly r.interface) →
        (∀ r ∈ exMissOnly, ∀ insts fe, r.factory insts r.params ≠ Except.error fe) →
        buildError exMissOnly = some (Error.UnregisteredDependency 9))) :=
  ⟨⟨by decide, List.mem_cons_self _ _, by decide, by decide⟩,
    c4_missing_amended exMissOnly ⟨1, [9], ParameterMap.empty, canonicalFactory 1⟩ 9
      (by decide) (List.mem_cons_self _ _) (by decide) (by decide)⟩

theorem build_singleton (k : TypeKey) (pm' : ParameterMap) :
    build [⟨k, [], pm', canonicalFactory k⟩] = .ok [(k, Instance.mk k [] pm')] := by
  simp [build, buildSt, buildLoop, resolveKey, resolveList, findReg, canonicalFactory]

theorem lookup_overwriteNamed (l : List (String × PValue)) (n : String) (v : PValue) :
    List.lookup n (overwriteNamed l n v) = some v := by
  induction l with
  | nil => simp [overwriteNamed]
  | cons p rest ih =>
    obtain ⟨m, w⟩ := p
    by_cases hmn : m = n
    · subst hmn
      simp [overwriteNamed]
    · have hb : (m == n) = false := by simp [hmn]
      have hb' : (n == m) = false := by
        simp only [beq_eq_false_iff_ne, ne_eq]
        intro h
        exact hmn h.symm
      simp [overwriteNamed, hmn, List.lookup_cons, hb, hb', ih]

theorem lookup_overwriteTyped (l : List (TypeKey × PValue)) (tk : TypeKey) (v : PValue) :
    List.lookup tk (overwriteTyped l tk v) = some v := by
  induction l with
  | nil => simp [overwriteTyped]
  | cons p rest ih =>
    obtain ⟨m, w⟩ := p
    by_cases hmn : m = tk
    · subst hmn
      simp [overwriteTyped]
    · have hb : (m == tk) = false := by simp [hmn]
      have hb' : (tk == m) = false := by
        simp only [beq_eq_false_iff_ne, ne_eq]
        intro h
        exact hmn h.symm
      simp [overwriteTyped, hmn, List.lookup_cons, hb, hb', ih]

/-- C5: storing a named parameter overwrites any prior value under that
name regardless of the prior value's type, with no error — after setting
`n` to `v₁` and then to `v₂` on the same registration, the factory
observes `v₂` (last write wins); typed parameters overwrite per value
type the same way.  The third conjunct shows the full pipeline: building
the registration configured through the fluent `with_named_parameter`
calls stores an instance whose ParameterMap is the twice-overwritten
map, of which the first conjunct says lookup yields `v₂`. -/
theorem c5_parameter_overwrite (pm : ParameterMap) (n : String) (v₁ v₂ w₁ w₂ : PValue)
    (hw : typeKeyOf w₁ = typeKeyOf w₂) (k : TypeKey) :
    ((pm.setNamed n v₁).setNamed n v₂).getNamed n (typeKeyOf v₂) = some v₂ ∧
    ((pm.setTyped w₁).setTyped w₂).getTyped (typeKeyOf w₁) = some w₂ ∧
    build [withNamedParameter (withNamedParameter ⟨k, [], pm, canonicalFactory k⟩ n v₁) n v₂] =
      .ok [(k, Instance.mk k [] ((pm.setNamed n v₁).setNamed n v₂))] := by
  refine ⟨?_, ?_, ?_⟩
  · simp [ParameterMap.getNamed, ParameterMap.setNamed, lookup_overwriteNamed]
  · rw [hw]
    simp [ParameterMap.getTyped, ParameterMap.setTyped, lookup_overwriteTyped]
  · exact build_singleton k ((pm.setNamed n v₁).setNamed n v₂)

/-- Witness for C5: setting "p" to 1 then to 2 leaves the factory
observing 2. -/
theorem c5_witness :
    typeKeyOf (PValue.vnat 3) = typeKeyOf (PValue.vnat 4) ∧
    ((((ParameterMap.empty.setNamed "p" (PValue.vnat 1)).setNamed "p"
        (PValue.vnat 2)).getNamed "p" (typeKeyOf (PValue.vnat 2)) = some (PValue.vnat 2)) ∧
      (((ParameterMap.empty.setTyped (PValue.vnat 3)).setTyped
        (PValue.vnat 4)).getTyped (typeKeyOf (PValue.vnat 3)) = some (PValue.vnat 4)) ∧
      build [withNamedParameter (withNamedParameter ⟨7, [], ParameterMap.empty, canonicalFactory 7⟩ "p"
          (PValue.vnat 1)) "p" (PValue.vnat 2)] =
        .ok [(7, Instance.mk 7 []
          ((ParameterMap.empty.setNamed "p" (PValue.vnat 1)).setNamed "p" (PValue.vnat 2)))]) :=
  ⟨by rfl, c5_parameter_overwrite ParameterMap.empty "p" (PValue.vnat 1) (PValue.vnat 2)
    (PValue.vnat 3) (PValue.vnat 4) (by rfl) 7⟩

theorem register_map_interface_nodup {b : List Registration} (r : Registration)
    (h : (b.map (fun x => x.interface)).Nodup) :
    ((register b r).map (fun x => x.interface)).Nodup := by
  by_cases hany : b.any (fun x => x.interface == r.interface) = true
  · have hmap : (register b r).map (fun x => x.interface) = b.map (fun x => x.interface) := by
      simp only [register, hany, if_true, List.map_map]
      apply List.map_congr_left
      intro x hx
      by_cases hxi : x.interface == r.interface
      · simp [Function.comp, hxi]
        exact (eq_of_beq hxi).symm
      · simp [Function.comp, hxi]
    rw [hmap]
    exact h
  · have hmap : register b r = b ++ [r] := by
      simp [register, hany]
    rw [hmap, List.map_append]
    refine List.Nodup.append h (List.nodup_singleton _) ?_
    intro x hx₁ hx₂
    simp only [List.map_singleton, List.mem_singleton] at hx₂
    subst hx₂
    rcases List.mem_map.mp hx₁ with ⟨y, hy, hyi⟩
    exact hany (List.any_eq_true.mpr ⟨y, hy, by simp [hyi]⟩)

theorem registerAll_nodup (rs : List Registration) :
    ∀ (b : List Registration), (b.map (fun x => x.interface)).Nodup →
      ((rs.foldl register b).map (fun x => x.interface)).Nodup := by
  induction rs with
  | nil =>
    intro b h
    exact h
  | cons r rs ih =>
    intro b h
    exact ih (register b r) (register_map_interface_nodup r h)

theorem findReg_replace (b : List Registration) (r : Registration)
    (hany : b.any (fun x => x.interface == r.interface) = true) :
    List.find? (fun y => y.interface == r.interface)
      (b.map (fun x => if (x.interface == r.interface) = true then r else x)) = some r := by
  induction b with
  | nil => simp at hany
  | cons x xs ih =>
    by_cases hxi : (x.interface == r.interface) = true
    · simp only [List.map_cons, if_pos hxi]
      exact List.find?_cons_of_pos _ (by simp)
    · have hany' : xs.any (fun y => y.interface == r.interface) = true := by
        rcases List.any_eq_true.mp hany with ⟨y, hy, hyi⟩
        rcases List.mem_cons.mp hy with rfl | hy'
        · exact absurd hyi hxi
        · exact List.any_eq_true.mpr ⟨y, hy', hyi⟩
      have hxif : (x.interface == r.interface) = false := by simpa using hxi
      simp only [List.map_cons, hxif, Bool.false_eq_true, if_false, List.find?]
      exact ih hany'

theorem findReg_append_missing (b : List Registration) (r : Registration)
    (hany : ¬ b.any (fun x => x.interface == r.interface) = true) :
    List.find? (fun y => y.interface == r.interface) (b ++ [r]) = some r := by
  induction b with
  | nil =>
    simp only [List.nil_append]
    exact List.find?_cons_of_pos _ (by simp)
  | cons x xs ih =>
    have hx : ¬ (x.interface == r.interface) = true := fun hc =>
      hany (List.any_eq_true.mpr ⟨x, List.mem_cons_self x xs, hc⟩)
    have hany' : ¬ xs.any (fun y => y.interface == r.interface) = true := by
      intro hc
      rcases List.any_eq_true.mp hc with ⟨y, hy, hyi⟩
      exact hany (List.any_eq_true.mpr ⟨y, List.mem_cons_of_mem x hy, hyi⟩)
    have hxf : (x.interface == r.interface) = false := by simpa using hx
    simp only [List.cons_append, List.find?, hxf]
    exact ih hany'

theorem findReg_register (b : List Registration) (r : Registration) :
    findReg (register b r) r.interface = some r := by
  by_cases hany : b.any (fun x => x.interface == r.interface) = true
  · simp only [register, hany, if_true]
    exact findReg_replace b r hany
  · have hmap : register b r = b ++ [r] := by
      simp [register, hany]
    rw [hmap]
    exact findReg_append_missing b r hany

theorem register_length (b : List Registration) (r : Registration)
    (hany : b.any (fun x => x.interface == r.interface) = true) :
    (register b r).length = b.length := by
  simp [register, hany]

/-- C6: registering the same interface twice replaces the prior
Registration entirely — looking the interface up after re-registering
returns the second Registration whole (factory, dependency list and
parameters included), the builder does not grow (last-write-wins is not
an error and never merges), and any sequence of `register` calls starting
from the empty builder keeps interfaces unique at all times. -/
theorem c6_register_replaces (rs : List Registration) (b : List Registration)
    (r₁ r₂ : Registration) (hif : r₂.interface = r₁.interface) :
    ((rs.foldl register []).map (fun x => x.interface)).Nodup ∧
    findReg (register (register b r₁) r₂) r₁.interface = some r₂ ∧
    (register (register b r₁) r₂).length = (register b r₁).length := by
  refine ⟨registerAll_nodup rs [] (by simp), ?_, ?_⟩
  · rw [← hif]
    exact findReg_register (register b r₁) r₂
  · apply register_length
    have hfind := findReg_register b r₁
    have hsome : (findReg (register b r₁) r₁.interface).isSome := by simp [hfind]
    rcases List.find?_isSome.mp hsome with ⟨x, hx, hxi⟩
    exact List.any_eq_true.mpr ⟨x, hx, by rw [hif]; exact hxi⟩

/-- Witness for C6: re-registering interface 7 replaces the first
registration wholesale. -/
theorem c6_witness :
    ((⟨7, [9], ParameterMap.empty, canonicalFactory 7⟩ : Registration).interface =
      (⟨7, [], ParameterMap.empty, canonicalFactory 7⟩ : Registration).interface) ∧
    ((([⟨1, [], ParameterMap.empty, canonicalFactory 1⟩, ⟨2, [1], ParameterMap.empty, canonicalFactory 2⟩,
        ⟨1, [2], ParameterMap.empty, canonicalFactory 1⟩] : List Registration).foldl register []).map
          (fun x => x.interface)).Nodup ∧
    findReg (register (register [⟨3, [], ParameterMap.empty, canonicalFactory 3⟩] ⟨7, [], ParameterMap.empty, canonicalFactory 7⟩)
        ⟨7, [9], ParameterMap.empty, canonicalFactory 7⟩) (⟨7, [], ParameterMap.empty, canonicalFactory 7⟩ : Registration).interface =
      some ⟨7, [9], ParameterMap.empty, canonicalFactory 7⟩ ∧
    (register (register [⟨3, [], ParameterMap.empty, canonicalFactory 3⟩] ⟨7, [], ParameterMap.empty, canonicalFactory 7⟩)
        ⟨7, [9], ParameterMap.empty, canonicalFactory 7⟩).length =
      (register [⟨3, [], ParameterMap.empty, canonicalFactory 3⟩] ⟨7, [], ParameterMap.empty, canonicalFactory 7⟩).length :=
  ⟨by rfl, c6_register_replaces
    [⟨1, [], ParameterMap.empty, canonicalFactory 1⟩, ⟨2, [1], ParameterMap.empty, canonicalFactory 2⟩, ⟨1, [2], ParameterMap.empty, canonicalFactory 1⟩]
    [⟨3, [], ParameterMap.empty, canonicalFactory 3⟩] ⟨7, [], ParameterMap.empty, canonicalFactory 7⟩ ⟨7, [9], ParameterMap.empty, canonicalFactory 7⟩
    (by rfl)⟩

/-- C9: under the `thread_safe` feature (`src/shaku/src/module/mod.rs`),
`ComponentMap = anymap2::Map<dyn Any + Send + Sync>` admits exactly the
`Send + Sync` types while `ParameterMap = anymap2::Map<dyn Any + Send>`
admits exactly the `Send` types — a strictly weaker requirement (every
type the component map admits is admitted by the parameter map, and some
`Send`-but-not-`Sync` type is admitted only by the parameter map); without
the feature both maps admit every type. -/
theorem c9_thread_bounds :
    (∀ t : TraitBound, admits (componentMapBound true) t = true ↔
        (t.send = true ∧ t.sync = true)) ∧
    (∀ t : TraitBound, admits (parameterMapBound true) t = true ↔ t.send = true) ∧
    (∀ t : TraitBound, admits (componentMapBound true) t = true →
        admits (parameterMapBound true) t = true) ∧
    (∃ t : TraitBound, admits (parameterMapBound true) t = true ∧
        admits (componentMapBound true) t = false) ∧
    (∀ t : TraitBound, admits (componentMapBound false) t = true) ∧
    (∀ t : TraitBound, admits (parameterMapBound false) t = true) := by
  refine ⟨?_, ?_, ?_, ⟨⟨true, false⟩, by decide, by decide⟩, ?_, ?_⟩ <;>
    (intro t; obtain ⟨ts, ty⟩ := t; cases ts <;> cases ty <;> decide)

/-- C10: the public API reports every failure through the single shared
error type (the `shaku::Error` re-export and the sole
`Result<T> = std::result::Result<T, Error>` alias in
`src/shaku/src/lib.rs`): every `build()` error is one of the build-time
taxonomy cases (never `NotFound`), and every `resolve` error is exactly
`NotFound` for the requested key — one error channel, disjoint variant
ranges. -/
theorem c10_single_error_type :
    (∀ (regs : List Registration) (e : Error), buildError regs = some e →
        errTag e ∈ buildTimeTags) ∧
    (∀ (c : Container) (k : TypeKey) (e : Error),
        resolveContainer c k = Except.error e →
        e = Error.NotFound k ∧ errTag e = ErrTag.notFound) := by
  constructor
  · intro regs e h
    cases hb : buildSt regs with
    | ok s => simp [buildError, hb] at h
    | error es =>
      obtain ⟨e₁, serr⟩ := es
      simp only [buildError, hb, Option.some.injEq] at h
      subst h
      rcases (buildSt_classify regs e₁ serr hb).1 with ⟨p, k₀, rfl, _⟩ | ⟨k', rfl, _⟩ |
        ⟨k₁, fe, reg, insts, rfl, _, _⟩
      · simp [errTag, buildTimeTags]
      · simp [errTag, buildTimeTags]
      · cases fe <;> simp [factoryError, errTag, buildTimeTags]
  · intro c k e h
    cases hl : List.lookup k c with
    | some inst => simp [resolveContainer, hl] at h
    | none =>
      simp only [resolveContainer, hl] at h
      cases h
      exact ⟨rfl, rfl⟩

/-- Witness for C10: a failed build reports a build-time tag; resolving on
an empty container reports NotFound. -/
theorem c10_witness :
    (buildError exMiss2 = some (Error.UnregisteredDependency 8) ∧
      errTag (Error.UnregisteredDependency 8) ∈ buildTimeTags) ∧
    (resolveContainer [] 5 = Except.error (Error.NotFound 5) ∧
      (Error.NotFound 5 = Error.NotFound 5 ∧
        errTag (Error.NotFound 5) = ErrTag.notFound)) :=
  ⟨⟨by rfl, c10_single_error_type.1 exMiss2 (Error.UnregisteredDependency 8) (by rfl)⟩,
    ⟨by rfl, c10_single_error_type.2 [] 5 (Error.NotFound 5) (by rfl)⟩⟩

